import Mathlib

/-!
Shallow embedding of the Space Biology Knowledge Engine (Space_app_25) in Lean 4,
covering the RAG chat pipeline (`rag_system/chat.py`), the embedding utilities
(`rag_system/embeddings.py`), the Pinecone client (`vector_db/pinecone_client.py`),
the vector-DB manager (`backend/vector_db/base.py`) and the text chunker
(`utils/text_processing.py`), together with theorems settling the specification
claims about those functions.

Python floats that are only ever compared (similarity scores) are modelled as `Int`;
Python dictionaries are modelled as association lists with dict update semantics
(replace in place, append new keys at the end); a Python call that may raise is
modelled in `Except String`; external services (Gemini, Pinecone, web search) are
modelled as oracle parameters describing the outcome of the corresponding call.
-/

set_option maxRecDepth 8000

namespace SpaceApp

/-- Whitespace test used by Python str.strip. -/
def isWS (c : Char) : Bool := c.isWhitespace

/-- Python str.strip on a character list. -/
def stripChars (l : List Char) : List Char :=
  ((l.dropWhile isWS).reverse.dropWhile isWS).reverse

/-- Lowercase a string character by character, mirroring Python str.lower. -/
def pyLower (s : String) : String := String.mk (s.data.map Char.toLower)

/-- Strip whitespace from both ends of a string, mirroring Python str.strip. -/
def pyStrip (s : String) : String := String.mk (stripChars s.data)

/-! ## rag_system/embeddings.py : EmbeddingGenerator -/

/-- Replace each newline character by a space, mirroring the text cleaning step
of `_generate_gemini_embedding`. -/
def replaceNewlines (s : String) : String :=
  String.mk (s.data.map (fun c => if c = '\n' then ' ' else c))

/-- Embedding of `EmbeddingGenerator._generate_gemini_embedding`.  The outcome of
the `genai.embed_content` provider call is a parameter; the function returns the
embedding option together with a flag recording whether the provider was invoked.
A provider exception is caught and converted to `none`. -/
def generate_gemini_embedding (text : String) (provider : Except String (List Int)) :
    Option (List Int) × Bool :=
  let cleaned := pyStrip (replaceNewlines text)
  if cleaned = "" then (none, false)
  else
    match provider with
    | Except.ok emb => (some emb, true)
    | Except.error _ => (none, true)

/-- Embedding of `EmbeddingGenerator._generate_sentence_transformer_embedding`:
the encoder outcome is a parameter, an exception is caught and becomes `none`. -/
def generate_st_embedding (provider : Except String (List Int)) :
    Option (List Int) × Bool :=
  match provider with
  | Except.ok emb => (some emb, true)
  | Except.error _ => (none, true)

/-- Embedding of `EmbeddingGenerator.generate_embedding`: empty or whitespace-only
input short-circuits to `none` without touching the provider; otherwise the per-model
helper runs and every provider exception is caught, so the function is total. -/
def generate_embedding (modelType : String) (text : String)
    (provider : Except String (List Int)) : Option (List Int) × Bool :=
  if text = "" ∨ pyStrip text = "" then (none, false)
  else if modelType = "gemini" then generate_gemini_embedding text provider
  else if modelType = "sentence_transformers" then generate_st_embedding provider
  else (none, false)

/-- Output slot produced for one text by the Gemini batch loop: the per-text
provider outcome is given by `oracle`. -/
def embeddingSlot (oracle : String → Except String (List Int)) (t : String) :
    Option (List Int) :=
  (generate_gemini_embedding t (oracle t)).fst

/-- Embedding of `EmbeddingGenerator._generate_gemini_batch_embeddings`: each text
is embedded independently; a failure for one text appends `none` for that text and
the loop continues with the remaining texts. -/
def generate_gemini_batch_embeddings (oracle : String → Except String (List Int))
    (texts : List String) : List (Option (List Int)) :=
  texts.map (embeddingSlot oracle)

/-- Fuel-indexed version of the batching loop of `generate_batch_embeddings`
(`for i in range(0, len(texts), batch_size)` followed by `embeddings.extend`).
The fuel only serves termination; `texts.length` steps suffice whenever the
batch size is positive. -/
def batchLoop (oracle : String → Except String (List Int)) (bs : Nat) :
    Nat → List String → List (Option (List Int))
  | _, [] => []
  | 0, _ :: _ => []
  | fuel + 1, t :: ts =>
      generate_gemini_batch_embeddings oracle ((t :: ts).take bs) ++
        batchLoop oracle bs fuel ((t :: ts).drop bs)

/-- Embedding of `EmbeddingGenerator.generate_batch_embeddings` (Gemini model type).
A zero batch size makes Python `range` raise `ValueError`, modelled as `none`. -/
def generate_batch_embeddings (oracle : String → Except String (List Int))
    (texts : List String) (batchSize : Nat) : Option (List (Option (List Int))) :=
  if batchSize = 0 then none
  else some (batchLoop oracle batchSize texts.length texts)

/-! ## vector_db/pinecone_client.py : PineconeDB -/

/-- Modelled from the spec: the backing Pinecone index `delete(delete_all, namespace)`
call, which is not part of this repository.  The store is the list of existing
namespaces; deleting an absent namespace raises (serverless Pinecone returns 404),
deleting an existing one removes it. -/
def indexDelete (store : List String) (name : String) :
    Except String (List String) :=
  if name ∈ store then Except.ok (store.filter (fun n => n != name))
  else Except.error "namespace not found"

/-- Embedding of `PineconeDB.delete_collection`: the backing delete runs inside
try/except; an exception is caught and the method returns `False`, success returns
`True`.  The resulting store is returned alongside to express state effects. -/
def delete_collection (store : List String) (name : String) : Bool × List String :=
  match indexDelete store name with
  | Except.ok st => (true, st)
  | Except.error _ => (false, store)

/-- Python values that can appear in a document field handed to
`PineconeDB._prepare_metadata`: a string, a list of strings, or None.
Strings are modelled as `List Char` so that slicing lemmas stay elementary. -/
inductive PyValue where
  | vstr (s : List Char)
  | vlist (items : List (List Char))
  | vnone
deriving DecidableEq

/-- Flattening step of `_prepare_metadata`: a list or tuple value is cut to its
first 5 items and joined with a comma separator, any other value is stringified. -/
def flattenValue : PyValue → List Char
  | PyValue.vstr s => s
  | PyValue.vlist items => List.intercalate [',', ' '] (items.take 5)
  | PyValue.vnone => []

/-- Truncation step of `_prepare_metadata`: a value longer than 1000 characters is
cut to 1000 characters and an ellipsis of three dots is appended. -/
def truncateValue (s : List Char) : List Char :=
  if 1000 < s.length then s.take 1000 ++ ['.', '.', '.'] else s

/-- The `allowed_fields` whitelist of `_prepare_metadata`. -/
def allowedFields : List String :=
  ["id", "title", "content", "source_type", "url", "journal",
   "organism", "tissue", "mission", "experiment_type", "publication_date"]

/-- Embedding of `PineconeDB._prepare_metadata`: for each allowed field present in
the document and not None, flatten the value and truncate it. -/
def prepare_metadata (doc : List (String × PyValue)) : List (String × List Char) :=
  allowedFields.filterMap (fun f =>
    match doc.lookup f with
    | some PyValue.vnone => none
    | some v => some (f, truncateValue (flattenValue v))
    | none => none)

/-! ## rag_system/chat.py : SpaceBiologyRAG -/

/-- Metadata of a retrieved document as consumed by `chat.py`: the dictionary keys
the code reads, each possibly absent.  The authors entry may be a plain string or a
list of author names. -/
structure DocMeta where
  title : Option String
  authors : Option (String ⊕ List String)
  journal : Option String
  year : Option String
  url : Option String
  link : Option String
deriving DecidableEq

/-- A search hit as seen by the chat layer (a `SearchResult` object with metadata,
similarity score and text content). -/
structure RagDoc where
  metadata : DocMeta
  score : Int
  content : String
deriving DecidableEq

/-- A formatted source entry produced by `_format_sources`. -/
structure Source where
  title : String
  authors : String
  journal : String
  year : String
  url : String
  score : Int
deriving DecidableEq

/-- The displayed title of a hit: `metadata.get` with default string. -/
def rawTitle (d : RagDoc) : String := d.metadata.title.getD "Unknown Title"

/-- Normalized title used for deduplication: lowercased then stripped. -/
def normTitle (d : RagDoc) : String := pyStrip (pyLower (rawTitle d))

/-- Authors field of a formatted source: a list is joined with commas, an empty
list or a missing entry falls back to the default string. -/
def authorsText (d : RagDoc) : String :=
  match d.metadata.authors with
  | none => "Unknown Authors"
  | some (Sum.inl s) => s
  | some (Sum.inr l) => if l.isEmpty then "Unknown Authors" else String.intercalate ", " l

/-- The source dictionary `_format_sources` builds for one surviving hit. -/
def mkSource (d : RagDoc) : Source :=
  { title := rawTitle d
    authors := authorsText d
    journal := d.metadata.journal.getD "Unknown Journal"
    year := d.metadata.year.getD "Unknown Year"
    url := d.metadata.url.getD (d.metadata.link.getD "")
    score := d.score }

/-- Normalized title of an already formatted source entry. -/
def normKey (s : Source) : String := pyStrip (pyLower s.title)

/-- Descending-score order used by the final sort of `_format_sources`. -/
def scoreDesc (a b : Source) : Prop := b.score ≤ a.score

instance : DecidableRel scoreDesc :=
  fun a b => inferInstanceAs (Decidable (b.score ≤ a.score))

instance : IsTotal Source scoreDesc := ⟨fun a b => le_total b.score a.score⟩

instance : IsTrans Source scoreDesc := ⟨fun _ _ _ h1 h2 => le_trans h2 h1⟩

/-- Deduplication pass of `_format_sources`: walk the hits in order, skip a hit
whose normalized title was already seen or equals the sentinel, record the survivor
and remember its normalized title. -/
def format_sources_aux : List RagDoc → List String → List Source
  | [], _ => []
  | d :: ds, seen =>
    if normTitle d ∈ seen ∨ normTitle d = "unknown title" then
      format_sources_aux ds seen
    else
      mkSource d :: format_sources_aux ds (normTitle d :: seen)

/-- Embedding of `SpaceBiologyRAG._format_sources`: deduplicate then sort by score,
highest first. -/
def format_sources (docs : List RagDoc) : List Source :=
  List.insertionSort scoreDesc (format_sources_aux docs [])

/-- A conversation-history message, modelled as a Python dict so that a missing
`role` or `content` key raises a `KeyError` exactly as in the source. -/
abbrev PyDict := List (String × String)

/-- Python dict indexing `d[k]`: a missing key raises `KeyError`. -/
def dictGetE (d : PyDict) (k : String) : Except String String :=
  match d.lookup k with
  | some v => Except.ok v
  | none => Except.error ("KeyError: " ++ k)

/-- The space-biology keyword list of `_enhance_query_with_context`. -/
def spaceKeywords : List String :=
  ["microgravity", "space", "bone", "muscle", "plant", "cell", "radiation",
   "astronaut", "iss", "mission", "experiment", "tissue", "growth", "protein"]

/-- Python substring containment `pat in s`. -/
def strContains (s pat : String) : Bool := decide (pat.toList <:+: s.toList)

/-- Keywords found in a message content, in keyword-list order, mirroring the
inner loop of `_enhance_query_with_context`. -/
def matchedTerms (content : String) : List String :=
  spaceKeywords.filter (fun kw => strContains (pyLower content) kw)

/-- Terms contributed by one message: only user messages are scanned, and reading
the content of a user message may raise. -/
def userTerms (msg : PyDict) (role : String) : Except String (List String) :=
  if role = "user" then
    match dictGetE msg "content" with
    | Except.error e => Except.error e
    | Except.ok content => Except.ok (matchedTerms content)
  else Except.ok []

/-- Accumulation of `recent_topics` over the scanned messages. -/
def collectTopics : List PyDict → Except String (List String)
  | [] => Except.ok []
  | msg :: rest =>
    match dictGetE msg "role" with
    | Except.error e => Except.error e
    | Except.ok role =>
      match userTerms msg role with
      | Except.error e => Except.error e
      | Except.ok terms =>
        match collectTopics rest with
        | Except.error e => Except.error e
        | Except.ok more => Except.ok (terms ++ more)

/-- First-occurrence deduplication, a deterministic model of Python
`list(set(recent_topics))` (the claims never depend on the set iteration order). -/
def pyDistinctAux : List String → List String → List String
  | [], _ => []
  | x :: xs, seen =>
    if x ∈ seen then pyDistinctAux xs seen else x :: pyDistinctAux xs (x :: seen)

/-- Distinct elements of a list, keeping first occurrences. -/
def pyDistinct (l : List String) : List String := pyDistinctAux l []

/-- Python slice `xs[-n:]`. -/
def lastN {α : Type} (n : Nat) (xs : List α) : List α := xs.drop (xs.length - n)

/-- Embedding of `SpaceBiologyRAG._enhance_query_with_context`: with no history the
query is returned unchanged; otherwise the last six messages are scanned for
keywords and, when any match, at most three distinct matched terms are appended to
the query as a parenthetical hint. -/
def enhance_query_with_context (query : String) (history : List PyDict) :
    Except String String :=
  if history.isEmpty then Except.ok query
  else
    match collectTopics (lastN 6 history) with
    | Except.error e => Except.error e
    | Except.ok topics =>
      if topics.isEmpty then Except.ok query
      else
        Except.ok (query ++ " (related to: " ++
          String.intercalate ", " ((pyDistinct topics).take 3) ++ ")")

/-- Embedding of `SpaceBiologyRAG.search_similar_documents`: the embedding call and
the vector search run inside try/except, so an error yields the empty list. -/
def search_similar_documents (searchO : String → Nat → Except String (List RagDoc))
    (query : String) (topK : Nat) : List RagDoc :=
  match searchO query topK with
  | Except.ok docs => docs
  | Except.error _ => []

/-- Embedding of `SpaceBiologyRAG._get_web_sources`: failures are swallowed and at
most three web sources are returned. -/
def get_web_sources (webO : String → Except String (List Source)) (query : String) :
    List Source :=
  match webO query with
  | Except.ok ws => ws.take 3
  | Except.error _ => []

/-- One block of `_format_context` for a retrieved document. -/
def formatContextEntry (i : Nat) (d : RagDoc) : String :=
  "\nDocument " ++ toString i ++ ":\nTitle: " ++ rawTitle d ++
    "\nAuthors: " ++ authorsText d ++
    "\nContent: " ++ (d.content.take 500) ++ "...\nScore: " ++ toString d.score ++ "\n"

/-- Embedding of `SpaceBiologyRAG._format_context`. -/
def format_context (documents : List RagDoc) : String :=
  if documents.isEmpty then "No relevant documents found."
  else String.intercalate "\n"
    (documents.enum.map (fun p => formatContextEntry (p.fst + 1) p.snd))

/-- One block of `_format_web_context` for a web source. -/
def formatWebEntry (i : Nat) (s : Source) : String :=
  "\nWeb Resource " ++ toString i ++ ":\nTitle: " ++ s.title ++
    "\nURL: " ++ s.url ++ "\nType: web\nDescription: \n"

/-- Embedding of `SpaceBiologyRAG._format_web_context`. -/
def format_web_context (webSources : List Source) : String :=
  if webSources.isEmpty then "No web resources found."
  else String.intercalate "\n"
    (webSources.enum.map (fun p => formatWebEntry (p.fst + 1) p.snd))

/-- The conversation lines of `_create_prompt`: each of the last six messages is
rendered as role name plus the first 300 characters of its content; dict indexing
may raise. -/
def convLines : List PyDict → Except String String
  | [] => Except.ok ""
  | msg :: rest =>
    match dictGetE msg "role" with
    | Except.error e => Except.error e
    | Except.ok role =>
      match dictGetE msg "content" with
      | Except.error e => Except.error e
      | Except.ok content =>
        match convLines rest with
        | Except.error e => Except.error e
        | Except.ok more =>
          Except.ok (((if role = "user" then "Human" else "Assistant") ++ ": " ++
            content.take 300 ++ "...\n") ++ more)

/-- The `conversation_context` string built at the top of `_create_prompt`. -/
def conversationContext (history : List PyDict) : Except String String :=
  if history.isEmpty then Except.ok ""
  else
    match convLines (lastN 6 history) with
    | Except.error e => Except.error e
    | Except.ok body =>
      Except.ok ("\n\nPrevious Conversation:\n" ++ body ++ "\n")

/-- Leading part of the prompt template of `_create_prompt`, up to the retrieved
context. -/
def promptHeader : String :=
  "You are K-OSMOS, an advanced space biology research assistant with access to both scientific publications AND web search capabilities. You have been enhanced with web search functionality and can provide links, images, and online resources.\n\nIMPORTANT: You CAN perform web searches and provide web resources, images, and external links. Do not say you cannot do web searches.\n\nContext from Space Biology Research Papers:\n"

/-- Trailing part of the prompt template of `_create_prompt`, after the user
question. -/
def promptFooter : String :=
  "\n\nYour Enhanced Capabilities:\n✓ Access to scientific research database\n✓ Web search for relevant resources and images  \n✓ Finding NASA links, educational content, and visual materials\n✓ Providing URLs to real scientific websites and resources\n\nInstructions:\n- Answer comprehensively using research papers AND web resources\n- When users ask for web searches, images, or online resources, provide them\n- Include relevant NASA links, educational websites, and scientific visualizations\n- For topics like \"microgravity effects on skeletal systems\", provide both research findings AND web resources\n- Cite specific papers and include web links in your responses\n- Focus on scientific accuracy from authoritative sources\n- Use technical terms appropriately but explain complex concepts\n\nAnswer:"

/-- Embedding of `SpaceBiologyRAG._create_prompt`. -/
def create_prompt (query context : String) (history : List PyDict) :
    Except String String :=
  match conversationContext history with
  | Except.error e => Except.error e
  | Except.ok conv =>
    Except.ok (promptHeader ++ context ++ "\n" ++ conv ++
      "\nCurrent User Question: " ++ query ++ promptFooter)

/-- Embedding of `SpaceBiologyRAG._generate_response`: the Gemini call and response
cleaning run inside try/except, with a fixed apology fallback on error. -/
def generate_response (genO : String → Except String String) (prompt : String) :
    String :=
  match genO prompt with
  | Except.ok text => text
  | Except.error _ =>
    "I apologize, but I’m currently unable to generate a response. Please try again."

/-- The dictionary returned by `SpaceBiologyRAG.chat`. -/
structure ChatResult where
  response : String
  sources : List Source
  query : String
  numSources : Nat
  success : Bool
deriving DecidableEq

/-- The try-block of `SpaceBiologyRAG.chat`, steps 1 through 8: any step may raise,
which aborts the block with that exception. -/
def chat_body (query : String) (history : List PyDict) (topK : Nat)
    (searchO : String → Nat → Except String (List RagDoc))
    (webO : String → Except String (List Source))
    (genO : String → Except String String) : Except String ChatResult :=
  match enhance_query_with_context query history with
  | Except.error e => Except.error e
  | Except.ok enhanced =>
    let documents := search_similar_documents searchO enhanced topK
    let webSources := get_web_sources webO query
    let context := format_context documents
    let context2 :=
      if webSources.isEmpty then context
      else context ++ "\n\nAdditional Web Resources Available:\n" ++
        format_web_context webSources
    match create_prompt query context2 history with
    | Except.error e => Except.error e
    | Except.ok prompt =>
      let response := generate_response genO prompt
      let ragSources := (format_sources documents).take 10
      let sources := if webSources.isEmpty then ragSources else ragSources ++ webSources
      Except.ok
        { response := response
          sources := sources.take 10
          query := query
          numSources := (sources.take 10).length
          success := true }

/-- Embedding of `SpaceBiologyRAG.chat`: the try-block result on success, and the
structured apology dictionary when any internal exception is raised. -/
def chat (query : String) (history : List PyDict) (topK : Nat)
    (searchO : String → Nat → Except String (List RagDoc))
    (webO : String → Except String (List Source))
    (genO : String → Except String String) : ChatResult :=
  match chat_body query history topK searchO webO genO with
  | Except.ok r => r
  | Except.error e =>
    { response := "I apologize, but I encountered an error while processing your question: " ++ e
      sources := []
      query := query
      numSources := 0
      success := false }

/-! ## backend/vector_db/base.py : VectorDBManager -/

/-- A `SearchResult` dataclass of the backend vector-DB layer; its metadata is a
plain string dictionary. -/
structure SearchResult where
  id : String
  score : Int
  metadata : List (String × String)
  content : String
deriving DecidableEq

/-- Python dict assignment `d[k] = v`: replace the binding in place when the key
exists, append it otherwise. -/
def dictSet {β : Type} (k : String) (v : β) : List (String × β) → List (String × β)
  | [] => [(k, v)]
  | (k0, v0) :: rest =>
    if k0 = k then (k, v) :: rest else (k0, v0) :: dictSet k v rest

/-- The metadata tagging step of `hybrid_search`:
`result.metadata["collection"] = collection`. -/
def tagCollection (name : String) (r : SearchResult) : SearchResult :=
  { r with metadata := dictSet "collection" name r.metadata }

/-- The merge loop of `hybrid_search`: each entry pairs a collection name with the
outcome of `self.db.search` on it; a raising collection is logged and skipped, a
successful one contributes its hits tagged with the collection name. -/
def gatherResults : List (String × Except String (List SearchResult)) → List SearchResult
  | [] => []
  | (_, Except.error _) :: rest => gatherResults rest
  | (name, Except.ok rs) :: rest => rs.map (tagCollection name) ++ gatherResults rest

/-- Descending-score order used by the final sort of `hybrid_search`. -/
def resultDesc (a b : SearchResult) : Prop := b.score ≤ a.score

instance : DecidableRel resultDesc :=
  fun a b => inferInstanceAs (Decidable (b.score ≤ a.score))

instance : IsTotal SearchResult resultDesc := ⟨fun a b => le_total b.score a.score⟩

instance : IsTrans SearchResult resultDesc := ⟨fun _ _ _ h1 h2 => le_trans h2 h1⟩

/-- Embedding of `VectorDBManager.hybrid_search`: merge the per-collection results,
sort by score highest first, truncate to `limit`. -/
def hybrid_search (searches : List (String × Except String (List SearchResult)))
    (limit : Nat) : List SearchResult :=
  (List.insertionSort resultDesc (gatherResults searches)).take limit

/-! ## utils/text_processing.py : chunk_text -/

/-- Python slice `text[a:b]` for nonnegative bounds (clamped at the ends). -/
def sliceChars (l : List Char) (a b : Nat) : List Char := (l.drop a).take (b - a)

/-- Index of the last space in a character list, if any. -/
def lastSpaceIdx : List Char → Option Nat
  | [] => none
  | c :: rest =>
    match lastSpaceIdx rest with
    | some i => some (i + 1)
    | none => if c = ' ' then some 0 else none

/-- Python `text.rfind(" ", a, b)` restricted to found/not-found: the absolute
index of the last space in `text[a:b]`. -/
def rfindSpace (text : List Char) (a b : Nat) : Option Nat :=
  (lastSpaceIdx (sliceChars text a b)).map (fun i => a + i)

/-- The chunk end position computed by one iteration of `chunk_text`: the window
end `start + chunk_size`, moved back to the last space of the window when the
window does not already reach the end of the text and that space lies strictly
after `start`. -/
def chunkStop (text : List Char) (chunkSize : Nat) (start : Nat) : Nat :=
  if start + chunkSize < text.length then
    match rfindSpace text start (start + chunkSize) with
    | some p => if start < p then p else start + chunkSize
    | none => start + chunkSize
  else start + chunkSize

/-- The stripped chunk `text[start:stop].strip()` of one iteration. -/
def chunkPiece (text : List Char) (start stop : Nat) : List Char :=
  stripChars (sliceChars text start stop)

/-- The accumulator update of one iteration: an empty stripped chunk is not kept. -/
def chunkAcc (text : List Char) (start stop : Nat) (acc : List (List Char)) :
    List (List Char) :=
  if (chunkPiece text start stop).isEmpty then acc else acc ++ [chunkPiece text start stop]

/-- The while-loop of `chunk_text`, fuel-indexed for termination (the indices stay
in range on the inputs considered, so Nat subtraction agrees with Python).  Fuel
exhaustion yields `none`; Python would keep looping. -/
def chunkLoop (text : List Char) (chunkSize overlap : Nat) :
    Nat → Nat → List (List Char) → Option (List (List Char))
  | 0, _, _ => none
  | fuel + 1, start, acc =>
    if start < text.length then
      if text.length ≤ chunkStop text chunkSize start - overlap then
        some (chunkAcc text start (chunkStop text chunkSize start) acc)
      else
        chunkLoop text chunkSize overlap fuel (chunkStop text chunkSize start - overlap)
          (chunkAcc text start (chunkStop text chunkSize start) acc)
    else some acc

/-- Embedding of `chunk_text`: empty text gives no chunks, text at most one chunk
long is returned whole, otherwise the overlapping-window loop runs. -/
def chunk_text (text : List Char) (chunkSize overlap : Nat) :
    Option (List (List Char)) :=
  if text.isEmpty then some []
  else if text.length ≤ chunkSize then some [text]
  else chunkLoop text chunkSize overlap (text.length + 1) 0 []

/-- The word pattern of `n` copies of the two characters a and space. -/
def aPat (n : Nat) : List Char := List.flatten (List.replicate n ['a', ' '])

/-- The concrete input of the claim: the string made of 1000 copies of "a ". -/
def t1000 : List Char := aPat 1000

/-- The alternating word pattern with `n + 1` letters a, ending in a letter. -/
def aChunk (n : Nat) : List Char := aPat n ++ ['a']

/-- The chunk list `chunk_text` produces on `t1000` with size 512 and overlap 50. -/
def chunks1000 : List (List Char) := [aChunk 255, aChunk 254, aChunk 254, aChunk 254, aChunk 78]

/-- Concatenation of chunks with a prescribed overlap removed at each junction:
the first `k` characters of each later chunk are dropped. -/
def mergeChunks : List (List Char) → List Nat → List Char
  | [], _ => []
  | c :: rest, ks => c ++ (List.zipWith (fun piece k => piece.drop k) rest ks).flatten

/-! ## rag_system/embeddings.py : EmbeddingCache -/

/-- The `EmbeddingCache` object state: the cache dict, its capacity, and the
access-count dict. -/
structure EmbeddingCache where
  cache : List (String × List Int)
  maxSize : Nat
  accessCount : List (String × Nat)
deriving DecidableEq

/-- A freshly constructed cache. -/
def EmbeddingCache.init (maxSize : Nat) : EmbeddingCache :=
  { cache := [], maxSize := maxSize, accessCount := [] }

/-- Python `del d[k]` on an association list with unique keys. -/
def eraseKey {β : Type} (k : String) (m : List (String × β)) : List (String × β) :=
  m.eraseP (fun p => p.fst == k)

/-- Embedding of `EmbeddingCache.get`: on a hit the access count is bumped
(`access_count.get(h, 0) + 1`) and the embedding returned; a miss changes nothing. -/
def cacheGet (c : EmbeddingCache) (h : String) : Option (List Int) × EmbeddingCache :=
  match c.cache.lookup h with
  | some emb =>
    (some emb,
      { c with accessCount := dictSet h ((c.accessCount.lookup h).getD 0 + 1) c.accessCount })
  | none => (none, c)

/-- Python `min(items, key value)`: first pair with minimal count, in dict order. -/
def minByVal : List (String × Nat) → Option (String × Nat)
  | [] => none
  | x :: xs =>
    match minByVal xs with
    | none => some x
    | some m => if x.snd ≤ m.snd then some x else some m

/-- Embedding of `EmbeddingCache._evict_least_used`: with an empty access-count
dict nothing happens; otherwise the least-used key is removed from both dicts. -/
def evictLeastUsed (c : EmbeddingCache) : EmbeddingCache :=
  match minByVal c.accessCount with
  | none => c
  | some km =>
    { c with cache := eraseKey km.fst c.cache, accessCount := eraseKey km.fst c.accessCount }

/-- The storing step of `EmbeddingCache.put`: write the embedding and reset its
access count to 1. -/
def cachePutStore (c : EmbeddingCache) (h : String) (emb : List Int) : EmbeddingCache :=
  { c with cache := dictSet h emb c.cache, accessCount := dictSet h 1 c.accessCount }

/-- Embedding of `EmbeddingCache.put`: evict when the cache is full, then store the
embedding and reset its access count to 1. -/
def cachePut (c : EmbeddingCache) (h : String) (emb : List Int) : EmbeddingCache :=
  cachePutStore (if c.maxSize ≤ c.cache.length then evictLeastUsed c else c) h emb

/-- One public cache operation. -/
inductive CacheOp where
  | get (h : String)
  | put (h : String) (emb : List Int)
deriving DecidableEq

/-- State reached after one operation. -/
def applyOp (c : EmbeddingCache) : CacheOp → EmbeddingCache
  | CacheOp.get h => (cacheGet c h).snd
  | CacheOp.put h emb => cachePut c h emb

/-- State reached after a sequence of operations. -/
def runOps (c : EmbeddingCache) (ops : List CacheOp) : EmbeddingCache :=
  ops.foldl applyOp c

/-- Key list of an association list. -/
def keysOf {β : Type} (m : List (String × β)) : List String := m.map Prod.fst

/-- Internal well-formedness invariant of an `EmbeddingCache` state: positive
capacity, duplicate-free dict keys, equal key sets of the two dicts, and the
capacity bound on the cache. -/
def CacheWF (c : EmbeddingCache) : Prop :=
  1 ≤ c.maxSize ∧
  (keysOf c.cache).Nodup ∧
  (keysOf c.accessCount).Nodup ∧
  (∀ k, k ∈ keysOf c.cache ↔ k ∈ keysOf c.accessCount) ∧
  c.cache.length ≤ c.maxSize

/-! ## Concrete inputs used by counterexamples and witnesses -/

deriving instance DecidableEq for Except

/-- Document metadata with only a title, used by several concrete instances. -/
def onlyTitle (t : String) : DocMeta :=
  { title := some t, authors := none, journal := none, year := none, url := none, link := none }

/-- A hit titled Mars with score 1. -/
def cexDocA : RagDoc := { metadata := onlyTitle "Mars", score := 1, content := "" }

/-- A hit titled mars (same normalized title as `cexDocA`) with the higher score 5. -/
def cexDocB : RagDoc := { metadata := onlyTitle "mars", score := 5, content := "" }

/-- A hit whose title is the empty string, with score 3. -/
def cexDocE : RagDoc := { metadata := onlyTitle "", score := 3, content := "" }

/-- A document whose title is 1001 characters long. -/
def doc6 : List (String × PyValue) := [("title", PyValue.vstr (List.replicate 1001 'x'))]

/-- A document whose journal field is a six-element list. -/
def doc6w : List (String × PyValue) :=
  [("journal", PyValue.vlist [['a'], ['b'], ['c'], ['d'], ['e'], ['f']])]

/-- A history message that lacks the role key. -/
def badHistory : List PyDict := [[("content", "x")]]

/-- A well-formed single-message history mentioning microgravity and bone. -/
def wHistory : List PyDict :=
  [[("role", "user"), ("content", "Effects of Microgravity on bone")]]

/-- A search oracle that always succeeds with no hits. -/
def wSearchO : String → Nat → Except String (List RagDoc) := fun _ _ => Except.ok []

/-- A web-source oracle that always succeeds with no sources. -/
def wWebO : String → Except String (List Source) := fun _ => Except.ok []

/-- A generation oracle that always succeeds. -/
def wGenO : String → Except String String := fun _ => Except.ok "ok"

/-- A per-text embedding oracle failing exactly on the text a. -/
def wOracle : String → Except String (List Int) :=
  fun t => if t = "a" then Except.error "boom" else Except.ok [1]

/-- Backend search hit with score 3. -/
def sr1 : SearchResult := { id := "1", score := 3, metadata := [], content := "" }

/-- Backend search hit with score 7. -/
def sr2 : SearchResult := { id := "2", score := 7, metadata := [], content := "" }

/-- Three per-collection search outcomes, the middle one raising. -/
def searches3 : List (String × Except String (List SearchResult)) :=
  [("A", Except.ok [sr1]), ("B", Except.error "boom"), ("C", Except.ok [sr2])]

/-- A short operation sequence on a capacity-1 cache forcing an eviction. -/
def ops10 : List CacheOp := [CacheOp.put "a" [1], CacheOp.put "b" [2], CacheOp.get "b"]

/-! # Theorems -/

/-! ## C7 : delete_collection -/

/-- C7, counterexample.  Deleting a collection that does not exist makes the
backing delete raise; `delete_collection` catches the exception and returns
`False`, not the success the claim states. -/
theorem c7_counterexample : (delete_collection [] "missing").fst = false := rfl

/-- C7, amended.  `delete_collection` never propagates the backing exception: it
returns `True` exactly when the namespace existed (so deleting a nonexistent
collection returns `False`, not `True`), and it is idempotent on the store: a
second delete of the same name leaves the store unchanged. -/
theorem c7_delete_collection_spec (store : List String) (name : String) :
    (delete_collection store name).fst = decide (name ∈ store) ∧
    (delete_collection (delete_collection store name).snd name).snd
      = (delete_collection store name).snd := by
  by_cases h : name ∈ store
  · have hnotin : name ∉ store.filter (fun n => n != name) := by
      simp [List.mem_filter]
    simp [delete_collection, indexDelete, h, hnotin]
  · simp [delete_collection, indexDelete, h]

/-! ## C8 : generate_embedding -/

/-- A provider failure inside the Gemini helper always yields `none`. -/
theorem gemini_error_fst (text e : String) :
    (generate_gemini_embedding text (Except.error e)).fst = none := by
  simp only [generate_gemini_embedding]
  split <;> rfl

/-- C8.  `generate_embedding` returns `none` without calling the provider on
empty or whitespace-only input, and converts any provider exception to `none`;
being a total function, it never raises to its caller. -/
theorem c8_generate_embedding_spec (modelType text : String)
    (provider : Except String (List Int)) :
    (pyStrip text = "" → generate_embedding modelType text provider = (none, false)) ∧
    (∀ e, provider = Except.error e →
      (generate_embedding modelType text provider).fst = none) := by
  constructor
  · intro h
    simp [generate_embedding, h]
  · intro e he
    subst he
    by_cases h1 : text = "" ∨ pyStrip text = ""
    · simp [generate_embedding, h1]
    · by_cases h2 : modelType = "gemini"
      · simp [generate_embedding, h1, h2, gemini_error_fst]
      · by_cases h3 : modelType = "sentence_transformers"
        · simp [generate_embedding, h1, h2, h3, generate_st_embedding]
        · simp [generate_embedding, h1, h2, h3]

/-- C8, witness at concrete inputs: whitespace input short-circuits, and a
provider failure on real input yields `none`. -/
theorem c8_witness :
    generate_embedding "gemini" "  " (Except.ok [1]) = (none, false) ∧
    (generate_embedding "gemini" "hello" (Except.error "boom")).fst = none :=
  ⟨(c8_generate_embedding_spec "gemini" "  " (Except.ok [1])).1 (by decide),
   (c8_generate_embedding_spec "gemini" "hello" (Except.error "boom")).2 "boom" rfl⟩

/-! ## C9 : generate_batch_embeddings -/

/-- The batching loop equals a plain map over the texts, for any positive batch
size and enough fuel. -/
theorem batchLoop_eq_map (oracle : String → Except String (List Int)) (bs : Nat)
    (hbs : 1 ≤ bs) :
    ∀ (fuel : Nat) (texts : List String), texts.length ≤ fuel →
      batchLoop oracle bs fuel texts = texts.map (embeddingSlot oracle) := by
  intro fuel
  induction fuel with
  | zero =>
    intro texts h
    have : texts = [] := List.eq_nil_of_length_eq_zero (Nat.le_zero.mp h)
    subst this
    rfl
  | succ n ih =>
    intro texts h
    match texts with
    | [] => rfl
    | t :: ts =>
      have hdrop : ((t :: ts).drop bs).length ≤ n := by
        rw [List.length_drop]
        simp only [List.length_cons] at h ⊢
        omega
      calc batchLoop oracle bs (n + 1) (t :: ts)
          = generate_gemini_batch_embeddings oracle ((t :: ts).take bs) ++
              batchLoop oracle bs n ((t :: ts).drop bs) := rfl
        _ = ((t :: ts).take bs).map (embeddingSlot oracle) ++
              ((t :: ts).drop bs).map (embeddingSlot oracle) := by
              rw [ih _ hdrop]; rfl
        _ = (t :: ts).map (embeddingSlot oracle) := by
              rw [← List.map_append, List.take_append_drop]

/-- C9, counterexample.  With batch size 0 the Python `range` raises `ValueError`
and `generate_batch_embeddings` propagates it instead of returning a list. -/
theorem c9_counterexample :
    generate_batch_embeddings wOracle ["a"] 0 = none := rfl

/-- C9, amended.  For every positive batch size the call returns a list with
exactly one slot per input text, equal to the per-text map of the Gemini helper,
so a failure on one text only nulls that slot and every other text is still
processed. -/
theorem c9_generate_batch_embeddings_spec (oracle : String → Except String (List Int))
    (texts : List String) (batchSize : Nat) (hbs : 1 ≤ batchSize) :
    ∃ out, generate_batch_embeddings oracle texts batchSize = some out ∧
      out.length = texts.length ∧
      out = texts.map (embeddingSlot oracle) ∧
      ∀ (i : Nat) (hi : i < texts.length) (e : String),
        oracle (texts.get ⟨i, hi⟩) = Except.error e → out[i]? = some none := by
  refine ⟨texts.map (embeddingSlot oracle), ?_, by simp, rfl, ?_⟩
  · unfold generate_batch_embeddings
    rw [if_neg (by omega)]
    rw [batchLoop_eq_map oracle batchSize hbs texts.length texts le_rfl]
  · intro i hi e he
    have hslot : embeddingSlot oracle (texts.get ⟨i, hi⟩) = none := by
      unfold embeddingSlot
      rw [he]
      exact gemini_error_fst _ e
    rw [List.getElem?_map, List.getElem?_eq_getElem hi]
    show some (embeddingSlot oracle texts[i]) = some none
    rw [show texts[i] = texts.get ⟨i, hi⟩ from rfl, hslot]

/-- C9, witness: a two-text batch with batch size 1 where the first text fails
yields exactly the slots none and some. -/
theorem c9_witness :
    generate_batch_embeddings wOracle ["a", "b"] 1 = some [none, some [1]] ∧
    (["a", "b"].map (embeddingSlot wOracle))[0]? = some none := by
  obtain ⟨out, h1, _, h3, h4⟩ :=
    c9_generate_batch_embeddings_spec wOracle ["a", "b"] 1 (by decide)
  subst h3
  refine ⟨h1.trans (by decide), h4 0 (by decide) "boom" (by decide)⟩

/-! ## C6 : prepare_metadata -/

/-- Every binding of a filterMap over a key list comes from some key. -/
theorem lookup_filterMap_mem {g : String → Option (String × List Char)} :
    ∀ (keys : List String) (f : String) (v : List Char),
      (keys.filterMap g).lookup f = some v → ∃ k ∈ keys, g k = some (f, v) := by
  intro keys
  induction keys with
  | nil => intro f v h; simp [List.filterMap] at h
  | cons k ks ih =>
    intro f v h
    rw [List.filterMap_cons] at h
    cases hg : g k with
    | none =>
      rw [hg] at h
      obtain ⟨k0, hk0, hgk0⟩ := ih f v h
      exact ⟨k0, List.mem_cons_of_mem _ hk0, hgk0⟩
    | some p =>
      obtain ⟨f0, v0⟩ := p
      rw [hg] at h
      by_cases hf : f = f0
      · subst hf
        simp only [List.lookup, beq_self_eq_true] at h
        have hv : v0 = v := by injection h
        exact ⟨k, List.mem_cons_self _ _, by rw [hg, hv]⟩
      · have hb : (f == f0) = false := by simpa using hf
        simp only [List.lookup, hb] at h
        obtain ⟨k0, hk0, hgk0⟩ := ih f v h
        exact ⟨k0, List.mem_cons_of_mem _ hk0, hgk0⟩

/-- The truncation step never produces more than 1003 characters. -/
theorem truncateValue_length (s : List Char) : (truncateValue s).length ≤ 1003 := by
  unfold truncateValue
  split
  · rw [List.length_append, List.length_take]
    have h2 : min 1000 s.length ≤ 1000 := min_le_left _ _
    simp only [List.length_cons, List.length_nil]
    omega
  · omega

/-- C6, counterexample.  A 1001-character title is truncated to 1000 characters
plus a three-dot ellipsis, so the stored value has 1003 characters, more than the
1000 the claim allows. -/
theorem c6_counterexample :
    (prepare_metadata doc6).lookup "title" = some (List.replicate 1000 'x' ++ ['.', '.', '.']) ∧
    ((List.replicate 1000 'x' ++ ['.', '.', '.']) : List Char).length = 1003 := by
  constructor
  · decide
  · rw [List.length_append, List.length_replicate]
    rfl

/-- C6, amended.  Every field value stored by `_prepare_metadata` has at most
1003 characters (1000 plus the appended ellipsis), and a list-valued field
contributes at most its first 5 items, joined and then truncated. -/
theorem c6_prepare_metadata_spec (doc : List (String × PyValue)) (f : String)
    (v : List Char) (h : (prepare_metadata doc).lookup f = some v) :
    v.length ≤ 1003 ∧
    ∃ v0, doc.lookup f = some v0 ∧ v0 ≠ PyValue.vnone ∧
      v = truncateValue (flattenValue v0) ∧
      ∀ items, v0 = PyValue.vlist items →
        v = truncateValue (List.intercalate [',', ' '] (items.take 5)) := by
  obtain ⟨k, _, hgk⟩ := lookup_filterMap_mem allowedFields f v h
  cases hl : doc.lookup k with
  | none => rw [hl] at hgk; exact absurd hgk (by simp)
  | some v0 =>
    cases v0 with
    | vnone => rw [hl] at hgk; exact absurd hgk (by simp)
    | vstr s =>
      rw [hl] at hgk
      simp only [Option.some_inj, Prod.mk.injEq] at hgk
      obtain ⟨hk, hv⟩ := hgk
      subst hk
      refine ⟨hv ▸ truncateValue_length _, PyValue.vstr s, hl, by simp, hv.symm, ?_⟩
      intro items hitems
      exact absurd hitems (by simp)
    | vlist items =>
      rw [hl] at hgk
      simp only [Option.some_inj, Prod.mk.injEq] at hgk
      obtain ⟨hk, hv⟩ := hgk
      subst hk
      refine ⟨hv ▸ truncateValue_length _, PyValue.vlist items, hl, by simp, hv.symm, ?_⟩
      intro items2 hitems
      simp only [PyValue.vlist.injEq] at hitems
      subst hitems
      exact hv.symm

/-- C6, witness: a six-item journal list is stored as its first five items joined
with commas, well within the length bound. -/
theorem c6_witness :
    (['a', ',', ' ', 'b', ',', ' ', 'c', ',', ' ', 'd', ',', ' ', 'e'] : List Char).length ≤ 1003 ∧
    ∃ v0, doc6w.lookup "journal" = some v0 ∧ v0 ≠ PyValue.vnone ∧
      ['a', ',', ' ', 'b', ',', ' ', 'c', ',', ' ', 'd', ',', ' ', 'e']
        = truncateValue (flattenValue v0) ∧
      ∀ items, v0 = PyValue.vlist items →
        ['a', ',', ' ', 'b', ',', ' ', 'c', ',', ' ', 'd', ',', ' ', 'e']
          = truncateValue (List.intercalate [',', ' '] (items.take 5)) :=
  c6_prepare_metadata_spec doc6w "journal" _ (by decide)

/-! ## C2 : chat failure shape -/

/-- C2.  Whenever any internal exception is raised inside the try-block of
`chat`, the call still returns (the handler swallows the exception) and the
returned dictionary has `success = false`, an empty source list, and a non-empty
apology string as response. -/
theorem c2_chat_failure_shape (query : String) (history : List PyDict) (topK : Nat)
    (searchO : String → Nat → Except String (List RagDoc))
    (webO : String → Except String (List Source))
    (genO : String → Except String String) (e : String)
    (h : chat_body query history topK searchO webO genO = Except.error e) :
    (chat query history topK searchO webO genO).success = false ∧
    (chat query history topK searchO webO genO).sources = [] ∧
    (chat query history topK searchO webO genO).response ≠ "" := by
  unfold chat
  rw [h]
  refine ⟨rfl, rfl, ?_⟩
  intro hc
  have hlen := congrArg String.length hc
  rw [String.length_append] at hlen
  have hpos : 0 < ("I apologize, but I encountered an error while processing your question: ").length := by
    decide
  have hz : ("" : String).length = 0 := rfl
  omega

/-- C2, witness: a history message without a role key raises a `KeyError` inside
the try-block, and the call returns the structured failure dictionary. -/
theorem c2_witness :
    (chat "q" badHistory 15 wSearchO wWebO wGenO).success = false ∧
    (chat "q" badHistory 15 wSearchO wWebO wGenO).sources = [] ∧
    (chat "q" badHistory 15 wSearchO wWebO wGenO).response ≠ "" :=
  c2_chat_failure_shape "q" badHistory 15 wSearchO wWebO wGenO "KeyError: role" (by decide)

/-! ## C3 : hybrid_search -/

/-- Updating a key of a dict makes lookup of that key return the new value. -/
theorem dictSet_lookup {β : Type} (k : String) (v : β) :
    ∀ m : List (String × β), (dictSet k v m).lookup k = some v := by
  intro m
  induction m with
  | nil => simp [dictSet, List.lookup]
  | cons p rest ih =>
    obtain ⟨k0, v0⟩ := p
    by_cases h : k0 = k
    · subst h
      simp [dictSet, List.lookup]
    · have hb : (k == k0) = false := by simpa using (Ne.symm h)
      simp only [dictSet, if_neg h, List.lookup, hb]
      exact ih

/-- A tagged result carries its source collection name in its metadata. -/
theorem tagCollection_lookup (nm : String) (r : SearchResult) :
    (tagCollection nm r).metadata.lookup "collection" = some nm :=
  dictSet_lookup "collection" nm r.metadata

/-- Every merged hit comes from a successful per-collection search and is tagged
with that collection. -/
theorem gatherResults_mem :
    ∀ (searches : List (String × Except String (List SearchResult))) (r : SearchResult),
      r ∈ gatherResults searches →
      ∃ nm rs, (nm, Except.ok rs) ∈ searches ∧ ∃ r0 ∈ rs, r = tagCollection nm r0 := by
  intro searches
  induction searches with
  | nil => intro r h; simp [gatherResults] at h
  | cons p rest ih =>
    intro r h
    obtain ⟨nm, res⟩ := p
    cases res with
    | error e =>
      obtain ⟨nm0, rs0, hmem, hr0⟩ := ih r h
      exact ⟨nm0, rs0, List.mem_cons_of_mem _ hmem, hr0⟩
    | ok rs =>
      rw [show gatherResults ((nm, Except.ok rs) :: rest)
            = rs.map (tagCollection nm) ++ gatherResults rest from rfl] at h
      rcases List.mem_append.mp h with hL | hR
      · obtain ⟨r0, hr0, hEq⟩ := List.mem_map.mp hL
        exact ⟨nm, rs, List.mem_cons_self _ _, r0, hr0, hEq.symm⟩
      · obtain ⟨nm0, rs0, hmem, hr0⟩ := ih r hR
        exact ⟨nm0, rs0, List.mem_cons_of_mem _ hmem, hr0⟩

/-- The merge distributes over list concatenation of the search outcomes. -/
theorem gatherResults_append
    (a b : List (String × Except String (List SearchResult))) :
    gatherResults (a ++ b) = gatherResults a ++ gatherResults b := by
  induction a with
  | nil => rfl
  | cons p rest ih =>
    obtain ⟨nm, res⟩ := p
    cases res with
    | error e => simpa [gatherResults] using ih
    | ok rs => simp [gatherResults, ih]

/-- C3.  `hybrid_search` returns at most `limit` hits, sorted by descending
score; every returned hit comes from one collection whose search succeeded and is
tagged with that collection name in its metadata; and a collection whose search
raises contributes nothing: removing it from the input leaves the output
unchanged. -/
theorem c3_hybrid_search_spec
    (searches pre suf : List (String × Except String (List SearchResult)))
    (limit : Nat) (name e : String) :
    (hybrid_search searches limit).length ≤ limit ∧
    (hybrid_search searches limit).Pairwise resultDesc ∧
    (∀ r ∈ hybrid_search searches limit,
      ∃ nm rs, (nm, Except.ok rs) ∈ searches ∧
        ∃ r0 ∈ rs, r = tagCollection nm r0 ∧
          r.metadata.lookup "collection" = some nm) ∧
    hybrid_search (pre ++ (name, Except.error e) :: suf) limit
      = hybrid_search (pre ++ suf) limit := by
  have hperm := List.perm_insertionSort resultDesc (gatherResults searches)
  refine ⟨List.length_take_le _ _, ?_, ?_, ?_⟩
  · exact List.Pairwise.sublist (List.take_sublist _ _)
      (List.sorted_insertionSort resultDesc (gatherResults searches))
  · intro r hr
    have hr2 : r ∈ gatherResults searches :=
      hperm.mem_iff.mp ((List.take_sublist _ _).subset hr)
    obtain ⟨nm, rs, hmem, r0, hr0, hEq⟩ := gatherResults_mem searches r hr2
    exact ⟨nm, rs, hmem, r0, hr0, hEq, hEq ▸ tagCollection_lookup nm r0⟩
  · unfold hybrid_search
    rw [gatherResults_append, gatherResults_append,
      show gatherResults ((name, Except.error e) :: suf) = gatherResults suf from rfl]

/-- C3, witness: with one raising collection among three, the top-1 result is the
highest-scoring hit of the successful collections, tagged with its collection. -/
theorem c3_witness :
    (hybrid_search searches3 1).length ≤ 1 ∧
    (∃ nm rs, (nm, Except.ok rs) ∈ searches3 ∧
      ∃ r0 ∈ rs, tagCollection "C" sr2 = tagCollection nm r0 ∧
        (tagCollection "C" sr2).metadata.lookup "collection" = some nm) ∧
    hybrid_search [("B", Except.error "boom")] 1 = hybrid_search [] 1 := by
  have h := c3_hybrid_search_spec searches3 [] [] 1 "B" "boom"
  exact ⟨h.1, h.2.2.1 (tagCollection "C" sr2) (by decide), h.2.2.2⟩

/-! ## C1 : format_sources -/

/-- The normalized title survives source formatting. -/
theorem normKey_mkSource (d : RagDoc) : normKey (mkSource d) = normTitle d := rfl

/-- Every entry of the deduplication pass has a normalized title outside `seen`
and different from the sentinel, and is the formatted first hit of the input with
that normalized title. -/
theorem format_sources_aux_mem :
    ∀ (docs : List RagDoc) (seen : List String) (s : Source),
      s ∈ format_sources_aux docs seen →
      normKey s ∉ seen ∧ normKey s ≠ "unknown title" ∧
      ∃ d, docs.find? (fun d0 => normTitle d0 == normKey s) = some d ∧ s = mkSource d := by
  intro docs
  induction docs with
  | nil => intro seen s h; simp [format_sources_aux] at h
  | cons d ds ih =>
    intro seen s h
    rw [format_sources_aux] at h
    by_cases hd : normTitle d ∈ seen ∨ normTitle d = "unknown title"
    · rw [if_pos hd] at h
      obtain ⟨h1, h2, d0, hf, hs⟩ := ih seen s h
      have hne : normTitle d ≠ normKey s := by
        rcases hd with hdin | hdunk
        · intro hEq; exact h1 (hEq ▸ hdin)
        · intro hEq; exact h2 (hEq ▸ hdunk)
      refine ⟨h1, h2, d0, ?_, hs⟩
      rw [List.find?_cons_of_neg _ (by simpa using hne)]
      exact hf
    · rw [if_neg hd] at h
      push_neg at hd
      obtain ⟨hdseen, hdunk⟩ := hd
      rcases List.mem_cons.mp h with hs | hs
      · subst hs
        rw [normKey_mkSource]
        refine ⟨hdseen, hdunk, d, ?_, rfl⟩
        rw [List.find?_cons_of_pos _ (by simp)]
      · obtain ⟨h1, h2, d0, hf, hskd⟩ := ih (normTitle d :: seen) s hs
        have hne : normTitle d ≠ normKey s := by
          intro hEq
          exact h1 (hEq ▸ List.mem_cons_self _ _)
        refine ⟨fun hmem => h1 (List.mem_cons_of_mem _ hmem), h2, d0, ?_, hskd⟩
        rw [List.find?_cons_of_neg _ (by simpa using hne)]
        exact hf

/-- No two entries of the deduplication pass share a normalized title. -/
theorem format_sources_aux_nodup :
    ∀ (docs : List RagDoc) (seen : List String),
      ((format_sources_aux docs seen).map normKey).Nodup := by
  intro docs
  induction docs with
  | nil => intro seen; simp [format_sources_aux]
  | cons d ds ih =>
    intro seen
    rw [format_sources_aux]
    by_cases hd : normTitle d ∈ seen ∨ normTitle d = "unknown title"
    · rw [if_pos hd]; exact ih seen
    · rw [if_neg hd]
      simp only [List.map_cons, List.nodup_cons]
      refine ⟨?_, ih (normTitle d :: seen)⟩
      intro hmem
      obtain ⟨s, hsmem, hskey⟩ := List.mem_map.mp hmem
      have := (format_sources_aux_mem ds (normTitle d :: seen) s hsmem).1
      rw [normKey_mkSource] at hskey
      exact this (hskey ▸ List.mem_cons_self _ _)

/-- C1, amended.  `_format_sources` returns entries with pairwise distinct
normalized titles, none equal to the sentinel unknown title (empty titles are
kept), sorted by descending score; each entry is the formatted first input hit
bearing its normalized title (the first-seen duplicate survives, regardless of
score). -/
theorem c1_format_sources_spec (docs : List RagDoc) :
    ((format_sources docs).map normKey).Nodup ∧
    (∀ s ∈ format_sources docs, normKey s ≠ "unknown title") ∧
    (format_sources docs).Pairwise scoreDesc ∧
    (∀ s ∈ format_sources docs,
      ∃ d, docs.find? (fun d0 => normTitle d0 == normKey s) = some d ∧
        s = mkSource d) := by
  have hperm := List.perm_insertionSort scoreDesc (format_sources_aux docs [])
  refine ⟨?_, ?_, List.sorted_insertionSort scoreDesc _, ?_⟩
  · exact ((hperm.map normKey).nodup_iff).mpr (format_sources_aux_nodup docs [])
  · intro s hs
    exact (format_sources_aux_mem docs [] s (hperm.mem_iff.mp hs)).2.1
  · intro s hs
    exact (format_sources_aux_mem docs [] s (hperm.mem_iff.mp hs)).2.2

/-- C1, counterexample.  On three hits — an empty title with score 3, and two
hits sharing the normalized title mars with scores 1 (first) and 5 (second) —
the code keeps the empty-titled hit (the claim excludes it) and keeps the
first-seen duplicate with the lower score 1 (the claim keeps the higher 5). -/
theorem c1_counterexample :
    normTitle cexDocA = normTitle cexDocB ∧
    cexDocA.score < cexDocB.score ∧
    normTitle cexDocE = "" ∧
    (format_sources [cexDocE, cexDocA, cexDocB]).map Source.score = [3, 1] := by
  refine ⟨by decide, by decide, by decide, by decide⟩

/-- C1, witness: on a single Mars hit the spec theorem yields its non-sentinel
normalized title and its provenance as the first hit with that title. -/
theorem c1_witness :
    normKey (mkSource cexDocA) ≠ "unknown title" ∧
    (∃ d, [cexDocA].find? (fun d0 => normTitle d0 == normKey (mkSource cexDocA)) = some d ∧
      mkSource cexDocA = mkSource d) := by
  have h := c1_format_sources_spec [cexDocA]
  exact ⟨h.2.1 (mkSource cexDocA) (by decide), h.2.2.2 (mkSource cexDocA) (by decide)⟩

/-! ## C4 : enhance_query_with_context -/

/-- Dict indexing that returns a value found that value under the key. -/
theorem dictGetE_ok (d : PyDict) (k v : String) (h : dictGetE d k = Except.ok v) :
    d.lookup k = some v := by
  unfold dictGetE at h
  cases hl : d.lookup k with
  | none =>
    rw [hl] at h
    exact Except.noConfusion h
  | some v0 =>
    rw [hl] at h
    have h2 : v0 = v := by injection h
    exact congrArg some h2

/-- Every topic collected from the scanned messages is a keyword matched inside
the lowercased content of some user message. -/
theorem collectTopics_sound :
    ∀ (msgs : List PyDict) (ts : List String), collectTopics msgs = Except.ok ts →
      ∀ t ∈ ts, t ∈ spaceKeywords ∧
        ∃ msg ∈ msgs, msg.lookup "role" = some "user" ∧
          ∃ c, msg.lookup "content" = some c ∧ strContains (pyLower c) t = true := by
  intro msgs
  induction msgs with
  | nil =>
    intro ts h t ht
    rw [collectTopics] at h
    injection h with h2
    rw [← h2] at ht
    simp at ht
  | cons msg rest ih =>
    intro ts h t ht
    rw [collectTopics] at h
    cases hrole : dictGetE msg "role" with
    | error e => simp only [hrole] at h; exact Except.noConfusion h
    | ok role =>
      simp only [hrole] at h
      cases hterms : userTerms msg role with
      | error e => simp only [hterms] at h; exact Except.noConfusion h
      | ok terms =>
        simp only [hterms] at h
        cases hrest : collectTopics rest with
        | error e => simp only [hrest] at h; exact Except.noConfusion h
        | ok more =>
          simp only [hrest, Except.ok.injEq] at h
          rw [← h] at ht
          rcases List.mem_append.mp ht with htl | htr
          · unfold userTerms at hterms
            by_cases hu : role = "user"
            · rw [if_pos hu] at hterms
              cases hc : dictGetE msg "content" with
              | error e =>
                simp only [hc] at hterms
                exact Except.noConfusion hterms
              | ok content =>
                simp only [hc, Except.ok.injEq] at hterms
                rw [← hterms] at htl
                obtain ⟨htk, htc⟩ := List.mem_filter.mp htl
                exact ⟨htk, msg, List.mem_cons_self _ _,
                  hu ▸ dictGetE_ok msg "role" role hrole,
                  content, dictGetE_ok msg "content" content hc, htc⟩
            · rw [if_neg hu] at hterms
              injection hterms with h3
              rw [← h3] at htl
              simp at htl
          · obtain ⟨hk, msg0, hmem, hrest2⟩ := ih more hrest t htr
            exact ⟨hk, msg0, List.mem_cons_of_mem _ hmem, hrest2⟩

/-- Elements produced by the distinct pass come from the input list. -/
theorem pyDistinctAux_subset :
    ∀ (l seen : List String) (x : String), x ∈ pyDistinctAux l seen → x ∈ l := by
  intro l
  induction l with
  | nil => intro seen x h; simp [pyDistinctAux] at h
  | cons y ys ih =>
    intro seen x h
    rw [pyDistinctAux] at h
    by_cases hy : y ∈ seen
    · rw [if_pos hy] at h
      exact List.mem_cons_of_mem _ (ih seen x h)
    · rw [if_neg hy] at h
      rcases List.mem_cons.mp h with hx | hx
      · exact hx ▸ List.mem_cons_self _ _
      · exact List.mem_cons_of_mem _ (ih (y :: seen) x hx)

/-- Elements produced by the distinct pass avoid the seen accumulator. -/
theorem pyDistinctAux_not_seen :
    ∀ (l seen : List String) (x : String), x ∈ pyDistinctAux l seen → x ∉ seen := by
  intro l
  induction l with
  | nil => intro seen x h; simp [pyDistinctAux] at h
  | cons y ys ih =>
    intro seen x h
    rw [pyDistinctAux] at h
    by_cases hy : y ∈ seen
    · rw [if_pos hy] at h
      exact ih seen x h
    · rw [if_neg hy] at h
      rcases List.mem_cons.mp h with hx | hx
      · exact hx ▸ hy
      · intro hmem
        exact ih (y :: seen) x hx (List.mem_cons_of_mem _ hmem)

/-- The distinct pass produces a duplicate-free list. -/
theorem pyDistinct_nodup : ∀ (l : List String) (seen : List String),
    (pyDistinctAux l seen).Nodup := by
  intro l
  induction l with
  | nil => intro seen; simp [pyDistinctAux]
  | cons y ys ih =>
    intro seen
    rw [pyDistinctAux]
    by_cases hy : y ∈ seen
    · rw [if_pos hy]; exact ih seen
    · rw [if_neg hy]
      refine List.nodup_cons.mpr ⟨?_, ih (y :: seen)⟩
      intro hmem
      exact pyDistinctAux_not_seen ys (y :: seen) y hmem (List.mem_cons_self _ _)

/-- C4.  With an empty history the query is returned unchanged; in every case
where the enhancer returns, the original query is a prefix of the result, which
is either the query itself or the query followed by a parenthetical hint listing
at most three distinct keywords, each matched in some scanned user message. -/
theorem c4_enhance_query_spec (query : String) (history : List PyDict) :
    enhance_query_with_context query [] = Except.ok query ∧
    ∀ enhanced, enhance_query_with_context query history = Except.ok enhanced →
      (∃ suffix, enhanced = query ++ suffix) ∧
      (enhanced = query ∨
        ∃ ts, ts ≠ [] ∧ ts.length ≤ 3 ∧ ts.Nodup ∧
          (∀ t ∈ ts, t ∈ spaceKeywords ∧
            ∃ msg ∈ lastN 6 history, msg.lookup "role" = some "user" ∧
              ∃ c, msg.lookup "content" = some c ∧ strContains (pyLower c) t = true) ∧
          enhanced = query ++ " (related to: " ++ String.intercalate ", " ts ++ ")") := by
  constructor
  · simp [enhance_query_with_context]
  · intro enhanced h
    rw [enhance_query_with_context] at h
    by_cases hhist : history.isEmpty
    · rw [if_pos hhist] at h
      injection h with h2
      subst h2
      exact ⟨⟨"", (String.append_empty query).symm⟩, Or.inl rfl⟩
    · rw [if_neg hhist] at h
      cases hct : collectTopics (lastN 6 history) with
      | error e => simp only [hct] at h; exact Except.noConfusion h
      | ok topics =>
        simp only [hct] at h
        by_cases htop : topics.isEmpty
        · rw [if_pos htop] at h
          injection h with h2
          subst h2
          exact ⟨⟨"", (String.append_empty query).symm⟩, Or.inl rfl⟩
        · rw [if_neg htop] at h
          injection h with h2
          subst h2
          constructor
          · exact ⟨_, by rw [String.append_assoc, String.append_assoc]⟩
          · refine Or.inr ⟨(pyDistinct topics).take 3, ?_, List.length_take_le _ _,
              List.Nodup.sublist (List.take_sublist _ _) (pyDistinct_nodup topics []), ?_, rfl⟩
            · have hne : topics ≠ [] := fun hn => htop (by rw [hn]; rfl)
              obtain ⟨y, ys, hys⟩ := List.exists_cons_of_ne_nil hne
              have hpd : ∃ z zs, pyDistinct topics = z :: zs := by
                rw [hys]
                unfold pyDistinct pyDistinctAux
                rw [if_neg (by simp)]
                exact ⟨y, _, rfl⟩
              obtain ⟨z, zs, hzs⟩ := hpd
              rw [hzs, show (3 : Nat) = 2 + 1 from rfl, List.take_succ_cons]
              exact List.cons_ne_nil _ _
            · intro t ht
              have ht2 : t ∈ pyDistinct topics := (List.take_sublist _ _).subset ht
              have ht3 : t ∈ topics := pyDistinctAux_subset topics [] t ht2
              exact collectTopics_sound (lastN 6 history) topics hct t ht3

/-- C4, witness: one user message about microgravity and bone appends exactly
those two matched keywords to the query. -/
theorem c4_witness :
    (∃ suffix, "What happens to cells (related to: microgravity, bone)"
        = "What happens to cells" ++ suffix) ∧
    ("What happens to cells (related to: microgravity, bone)" = "What happens to cells" ∨
      ∃ ts, ts ≠ [] ∧ ts.length ≤ 3 ∧ ts.Nodup ∧
        (∀ t ∈ ts, t ∈ spaceKeywords ∧
          ∃ msg ∈ lastN 6 wHistory, msg.lookup "role" = some "user" ∧
            ∃ c, msg.lookup "content" = some c ∧ strContains (pyLower c) t = true) ∧
        "What happens to cells (related to: microgravity, bone)"
          = "What happens to cells" ++ " (related to: " ++ String.intercalate ", " ts ++ ")") :=
  (c4_enhance_query_spec "What happens to cells" wHistory).2
    "What happens to cells (related to: microgravity, bone)" (by decide)

/-! ## C10 : EmbeddingCache invariant -/

/-- Key membership after a dict update. -/
theorem keysOf_dictSet_mem {β : Type} (k : String) (v : β) :
    ∀ (m : List (String × β)) (x : String),
      x ∈ keysOf (dictSet k v m) ↔ x = k ∨ x ∈ keysOf m := by
  intro m
  induction m with
  | nil => intro x; simp [dictSet, keysOf]
  | cons p rest ih =>
    intro x
    obtain ⟨k0, v0⟩ := p
    by_cases h : k0 = k
    · subst h
      have he : dictSet k0 v ((k0, v0) :: rest) = (k0, v) :: rest := by simp [dictSet]
      rw [he]
      simp only [keysOf, List.map_cons, List.mem_cons]
      tauto
    · simp only [dictSet, if_neg h, keysOf, List.map_cons, List.mem_cons]
      have := ih x
      simp only [keysOf] at this
      rw [this]
      tauto

/-- A dict update preserves duplicate-freeness of the keys. -/
theorem keysOf_dictSet_nodup {β : Type} (k : String) (v : β) :
    ∀ m : List (String × β), (keysOf m).Nodup → (keysOf (dictSet k v m)).Nodup := by
  intro m
  induction m with
  | nil => intro _; simp [dictSet, keysOf]
  | cons p rest ih =>
    intro h
    obtain ⟨k0, v0⟩ := p
    simp only [keysOf, List.map_cons, List.nodup_cons] at h
    obtain ⟨h1, h2⟩ := h
    by_cases hk : k0 = k
    · subst hk
      have he : dictSet k0 v ((k0, v0) :: rest) = (k0, v) :: rest := by simp [dictSet]
      rw [he]
      simp only [keysOf, List.map_cons, List.nodup_cons]
      exact ⟨h1, h2⟩
    · simp only [dictSet, if_neg hk, keysOf, List.map_cons, List.nodup_cons]
      refine ⟨?_, ih h2⟩
      intro hmem
      rcases (keysOf_dictSet_mem k v rest k0).mp hmem with hx | hx
      · exact hk hx
      · exact h1 hx

/-- Updating an existing key does not change the dict size. -/
theorem dictSet_length_of_mem {β : Type} (k : String) (v : β) :
    ∀ m : List (String × β), k ∈ keysOf m → (dictSet k v m).length = m.length := by
  intro m
  induction m with
  | nil => intro h; simp [keysOf] at h
  | cons p rest ih =>
    intro h
    obtain ⟨k0, v0⟩ := p
    by_cases hk : k0 = k
    · subst hk; simp [dictSet]
    · have h2 : k ∈ keysOf rest := by
        simp only [keysOf, List.map_cons, List.mem_cons] at h
        rcases h with h | h
        · exact absurd h.symm hk
        · exact h
      simp only [dictSet, if_neg hk, List.length_cons, ih h2]

/-- A dict update grows the dict by at most one binding. -/
theorem dictSet_length_le {β : Type} (k : String) (v : β) :
    ∀ m : List (String × β), (dictSet k v m).length ≤ m.length + 1 := by
  intro m
  induction m with
  | nil => simp [dictSet]
  | cons p rest ih =>
    obtain ⟨k0, v0⟩ := p
    by_cases hk : k0 = k
    · subst hk; simp [dictSet]
    · simp only [dictSet, if_neg hk, List.length_cons]
      omega

/-- A successful lookup witnesses key membership. -/
theorem lookup_mem_keysOf {β : Type} (k : String) (v : β) :
    ∀ m : List (String × β), m.lookup k = some v → k ∈ keysOf m := by
  intro m
  induction m with
  | nil => intro h; cases h
  | cons p rest ih =>
    intro h
    obtain ⟨k0, v0⟩ := p
    by_cases hk : k = k0
    · simp [keysOf, hk]
    · have hb : (k == k0) = false := by simpa using hk
      simp only [List.lookup, hb] at h
      simp only [keysOf, List.map_cons, List.mem_cons]
      exact Or.inr (ih h)

/-- The least-used entry is an entry of the dict. -/
theorem minByVal_mem : ∀ (m : List (String × Nat)) (p : String × Nat),
    minByVal m = some p → p ∈ m := by
  intro m
  induction m with
  | nil => intro p h; cases h
  | cons x xs ih =>
    intro p h
    rw [minByVal] at h
    cases hm : minByVal xs with
    | none =>
      simp only [hm] at h
      injection h with h2
      exact h2 ▸ List.mem_cons_self _ _
    | some q =>
      simp only [hm] at h
      by_cases hle : x.snd ≤ q.snd
      · rw [if_pos hle] at h
        injection h with h2
        exact h2 ▸ List.mem_cons_self _ _
      · rw [if_neg hle] at h
        injection h with h2
        exact h2 ▸ List.mem_cons_of_mem _ (ih q hm)

/-- A nonempty access-count dict has a least-used entry. -/
theorem minByVal_isSome :
    ∀ (m : List (String × Nat)), m ≠ [] → ∃ q, minByVal m = some q := by
  intro m hm
  cases m with
  | nil => exact absurd rfl hm
  | cons x xs =>
    show ∃ q, (match minByVal xs with
      | none => some x
      | some m => if x.snd ≤ m.snd then some x else some m) = some q
    cases minByVal xs with
    | none => exact ⟨x, rfl⟩
    | some q =>
      by_cases hle : x.snd ≤ q.snd
      · exact ⟨x, show (if x.snd ≤ q.snd then some x else some q) = some x from if_pos hle⟩
      · exact ⟨q, show (if x.snd ≤ q.snd then some x else some q) = some q from if_neg hle⟩

/-- Key membership after deleting a key, on duplicate-free keys. -/
theorem keysOf_eraseKey_mem {β : Type} (k : String) :
    ∀ m : List (String × β), (keysOf m).Nodup →
      ∀ x, x ∈ keysOf (eraseKey k m) ↔ x ∈ keysOf m ∧ x ≠ k := by
  intro m
  induction m with
  | nil => intro _ x; simp [eraseKey, keysOf]
  | cons p rest ih =>
    intro hnd x
    obtain ⟨k0, v0⟩ := p
    simp only [keysOf, List.map_cons, List.nodup_cons] at hnd
    obtain ⟨h1, h2⟩ := hnd
    by_cases hk : k0 = k
    · subst hk
      have he : eraseKey k0 ((k0, v0) :: rest) = rest := by
        simp [eraseKey, List.eraseP_cons_of_pos]
      rw [he]
      simp only [keysOf, List.map_cons, List.mem_cons]
      constructor
      · intro hx
        refine ⟨Or.inr hx, ?_⟩
        intro hxk
        exact h1 (hxk ▸ hx)
      · rintro ⟨hx | hx, hxk⟩
        · exact absurd hx hxk
        · exact hx
    · have he : eraseKey k ((k0, v0) :: rest) = (k0, v0) :: eraseKey k rest := by
        have hb : ((k0, v0).fst == k) = false := by simpa using hk
        simp [eraseKey, List.eraseP_cons_of_neg, hb]
      rw [he]
      simp only [keysOf, List.map_cons, List.mem_cons]
      have hih := ih h2 x
      simp only [keysOf] at hih
      rw [hih]
      constructor
      · rintro (hx | ⟨ha, hb⟩)
        · exact ⟨Or.inl hx, hx ▸ hk⟩
        · exact ⟨Or.inr ha, hb⟩
      · rintro ⟨hx | hx, hxk⟩
        · exact Or.inl hx
        · exact Or.inr ⟨hx, hxk⟩

/-- Deleting a key preserves duplicate-freeness of the keys. -/
theorem keysOf_eraseKey_nodup {β : Type} (k : String) (m : List (String × β))
    (h : (keysOf m).Nodup) : (keysOf (eraseKey k m)).Nodup :=
  List.Nodup.sublist (List.Sublist.map Prod.fst (List.eraseP_sublist m)) h

/-- Deleting a present key shrinks the dict by exactly one binding. -/
theorem eraseKey_length {β : Type} (k : String) (m : List (String × β))
    (h : k ∈ keysOf m) : (eraseKey k m).length + 1 = m.length := by
  obtain ⟨p, hp, hpk⟩ := List.mem_map.mp h
  exact List.length_eraseP_add_one hp (by simp [hpk])

/-- A cache hit only bumps an access count and preserves well-formedness. -/
theorem cacheWF_get (c : EmbeddingCache) (h : String) (hwf : CacheWF c) :
    CacheWF (cacheGet c h).snd := by
  obtain ⟨hmax, hnc, hna, hiff, hlen⟩ := hwf
  unfold cacheGet
  cases hl : c.cache.lookup h with
  | none => exact ⟨hmax, hnc, hna, hiff, hlen⟩
  | some emb =>
    refine ⟨hmax, hnc, keysOf_dictSet_nodup _ _ _ hna, ?_, hlen⟩
    intro k
    have hhc : h ∈ keysOf c.cache := lookup_mem_keysOf h emb c.cache hl
    have hha : h ∈ keysOf c.accessCount := (hiff h).mp hhc
    rw [show keysOf (EmbeddingCache.mk c.cache c.maxSize
        (dictSet h ((c.accessCount.lookup h).getD 0 + 1) c.accessCount)).accessCount
      = keysOf (dictSet h ((c.accessCount.lookup h).getD 0 + 1) c.accessCount) from rfl]
    rw [keysOf_dictSet_mem]
    constructor
    · intro hk
      exact Or.inr ((hiff k).mp hk)
    · rintro (hk | hk)
      · exact hk ▸ hhc
      · exact (hiff k).mpr hk

/-- Storing a binding preserves well-formedness when one slot is free. -/
theorem cacheWF_putStore (c : EmbeddingCache) (h : String) (emb : List Int)
    (hmax : 1 ≤ c.maxSize)
    (hnc : (keysOf c.cache).Nodup) (hna : (keysOf c.accessCount).Nodup)
    (hiff : ∀ k, k ∈ keysOf c.cache ↔ k ∈ keysOf c.accessCount)
    (hlen1 : c.cache.length + 1 ≤ c.maxSize) :
    CacheWF (cachePutStore c h emb) := by
  refine ⟨hmax, keysOf_dictSet_nodup _ _ _ hnc, keysOf_dictSet_nodup _ _ _ hna, ?_, ?_⟩
  · intro k
    show k ∈ keysOf (dictSet h emb c.cache) ↔ k ∈ keysOf (dictSet h 1 c.accessCount)
    rw [keysOf_dictSet_mem, keysOf_dictSet_mem, hiff k]
  · show (dictSet h emb c.cache).length ≤ c.maxSize
    exact le_trans (dictSet_length_le _ _ _) hlen1

/-- Eviction on a full well-formed cache frees exactly one slot in both dicts. -/
theorem cacheWF_evict_full (c : EmbeddingCache)
    (hnc : (keysOf c.cache).Nodup) (hna : (keysOf c.accessCount).Nodup)
    (hiff : ∀ k, k ∈ keysOf c.cache ↔ k ∈ keysOf c.accessCount)
    (hlen : c.cache.length ≤ c.maxSize)
    (hmax : 1 ≤ c.maxSize) (hfull : c.maxSize ≤ c.cache.length) :
    (evictLeastUsed c).maxSize = c.maxSize ∧
    (keysOf (evictLeastUsed c).cache).Nodup ∧
    (keysOf (evictLeastUsed c).accessCount).Nodup ∧
    (∀ k, k ∈ keysOf (evictLeastUsed c).cache ↔ k ∈ keysOf (evictLeastUsed c).accessCount) ∧
    (evictLeastUsed c).cache.length + 1 ≤ c.maxSize := by
  have hlen2 : c.cache.length = c.maxSize := le_antisymm hlen hfull
  have hne : c.accessCount ≠ [] := by
    intro hacc
    cases hc : c.cache with
    | nil => rw [hc] at hlen2; simp at hlen2; omega
    | cons p rest =>
      have hp : p.fst ∈ keysOf c.cache := by rw [hc]; simp [keysOf]
      have h2 := (hiff p.fst).mp hp
      rw [hacc] at h2
      simp [keysOf] at h2
  obtain ⟨q, hq⟩ := minByVal_isSome c.accessCount hne
  have hqa : q.fst ∈ keysOf c.accessCount :=
    List.mem_map.mpr ⟨q, minByVal_mem c.accessCount q hq, rfl⟩
  have hqc : q.fst ∈ keysOf c.cache := (hiff q.fst).mpr hqa
  unfold evictLeastUsed
  rw [hq]
  refine ⟨rfl, keysOf_eraseKey_nodup _ _ hnc, keysOf_eraseKey_nodup _ _ hna, ?_, ?_⟩
  · intro k
    show k ∈ keysOf (eraseKey q.fst c.cache) ↔ k ∈ keysOf (eraseKey q.fst c.accessCount)
    rw [keysOf_eraseKey_mem _ _ hnc, keysOf_eraseKey_mem _ _ hna, hiff k]
  · show (eraseKey q.fst c.cache).length + 1 ≤ c.maxSize
    rw [eraseKey_length _ _ hqc, hlen2]

/-- A put preserves well-formedness: on a full cache the least-used entry is
evicted first. -/
theorem cacheWF_put (c : EmbeddingCache) (h : String) (emb : List Int)
    (hwf : CacheWF c) : CacheWF (cachePut c h emb) := by
  obtain ⟨hmax, hnc, hna, hiff, hlen⟩ := hwf
  unfold cachePut
  by_cases hfull : c.maxSize ≤ c.cache.length
  · rw [if_pos hfull]
    obtain ⟨hm, h1, h2, h3, h4⟩ := cacheWF_evict_full c hnc hna hiff hlen hmax hfull
    exact cacheWF_putStore _ h emb (hm ▸ hmax) h1 h2 h3 (hm ▸ h4)
  · rw [if_neg hfull]
    exact cacheWF_putStore c h emb hmax hnc hna hiff (by omega)

/-- Each public cache operation preserves well-formedness. -/
theorem cacheWF_applyOp (c : EmbeddingCache) (op : CacheOp) (hwf : CacheWF c) :
    CacheWF (applyOp c op) := by
  cases op with
  | get h => exact cacheWF_get c h hwf
  | put h emb => exact cacheWF_put c h emb hwf

/-- Well-formedness holds after any operation sequence from a well-formed state. -/
theorem cacheWF_runOps :
    ∀ (ops : List CacheOp) (c : EmbeddingCache), CacheWF c → CacheWF (runOps c ops) := by
  intro ops
  induction ops with
  | nil => intro c hwf; exact hwf
  | cons op rest ih =>
    intro c hwf
    exact ih (applyOp c op) (cacheWF_applyOp c op hwf)

/-- The capacity field never changes across operations. -/
theorem runOps_maxSize :
    ∀ (ops : List CacheOp) (c : EmbeddingCache), (runOps c ops).maxSize = c.maxSize := by
  intro ops
  induction ops with
  | nil => intro c; rfl
  | cons op rest ih =>
    intro c
    rw [show runOps c (op :: rest) = runOps (applyOp c op) rest from rfl, ih]
    cases op with
    | get h =>
      show (cacheGet c h).snd.maxSize = c.maxSize
      unfold cacheGet
      cases c.cache.lookup h <;> rfl
    | put h emb =>
      show (cachePut c h emb).maxSize = c.maxSize
      unfold cachePut cachePutStore
      by_cases hfull : c.maxSize ≤ c.cache.length
      · rw [if_pos hfull]
        show (evictLeastUsed c).maxSize = c.maxSize
        unfold evictLeastUsed
        cases minByVal c.accessCount <;> rfl
      · rw [if_neg hfull]

/-- C10.  Starting from a fresh cache of capacity at least 1, after any sequence
of get and put operations the cache holds at most `maxSize` entries and the cache
dict and the access-count dict have exactly the same keys. -/
theorem c10_cache_invariant (maxSize : Nat) (ops : List CacheOp) (hmax : 1 ≤ maxSize) :
    (runOps (EmbeddingCache.init maxSize) ops).cache.length ≤ maxSize ∧
    ∀ k, k ∈ keysOf (runOps (EmbeddingCache.init maxSize) ops).cache ↔
      k ∈ keysOf (runOps (EmbeddingCache.init maxSize) ops).accessCount := by
  have hwf0 : CacheWF (EmbeddingCache.init maxSize) := by
    refine ⟨hmax, by simp [EmbeddingCache.init, keysOf], by simp [EmbeddingCache.init, keysOf],
      ?_, by simp [EmbeddingCache.init]⟩
    intro k
    simp [EmbeddingCache.init, keysOf]
  obtain ⟨_, _, _, hiff, hlen⟩ := cacheWF_runOps ops (EmbeddingCache.init maxSize) hwf0
  have hms : (runOps (EmbeddingCache.init maxSize) ops).maxSize = maxSize :=
    runOps_maxSize ops (EmbeddingCache.init maxSize)
  exact ⟨le_trans hlen (le_of_eq hms), hiff⟩

/-- C10, witness: on a capacity-1 cache, after two puts and a get the cache holds
one entry and the key b is in both dicts. -/
theorem c10_witness :
    (runOps (EmbeddingCache.init 1) ops10).cache.length ≤ 1 ∧
    ("b" ∈ keysOf (runOps (EmbeddingCache.init 1) ops10).cache ↔
      "b" ∈ keysOf (runOps (EmbeddingCache.init 1) ops10).accessCount) := by
  have h := c10_cache_invariant 1 ops10 (by decide)
  exact ⟨h.1, h.2 "b"⟩

/-! ## C5 : chunk_text on the concrete input -/

/-- One more copy of the pattern prepends the two characters. -/
theorem aPat_succ (n : Nat) : aPat (n + 1) = 'a' :: ' ' :: aPat n := rfl

/-- The pattern splits additively. -/
theorem aPat_add (m n : Nat) : aPat (m + n) = aPat m ++ aPat n := by
  rw [aPat, aPat, aPat, List.replicate_add, List.flatten_append]

/-- Length of the pattern. -/
theorem aPat_length (n : Nat) : (aPat n).length = 2 * n := by
  induction n with
  | zero => rfl
  | succ k ih =>
    rw [aPat_succ]
    simp only [List.length_cons, ih]
    omega

/-- One more copy of the pattern prepends the two characters to a chunk. -/
theorem aChunk_succ (k : Nat) : aChunk (k + 1) = 'a' :: ' ' :: aChunk k := by
  rw [aChunk, aChunk, aPat_succ]
  rfl

/-- Length of a chunk. -/
theorem aChunk_length (k : Nat) : (aChunk k).length = 2 * k + 1 := by
  rw [aChunk]
  simp [aPat_length]

/-- A chunk is never empty. -/
theorem aChunk_ne_nil (k : Nat) : aChunk k ≠ [] := by
  rw [aChunk]
  simp

/-- A chunk is never empty, Boolean form. -/
theorem aChunk_isEmpty (k : Nat) : (aChunk k).isEmpty = false := by
  cases hk : aChunk k with
  | nil => exact absurd hk (aChunk_ne_nil k)
  | cons a l => rfl

/-- A nonzero pattern is a chunk followed by a space. -/
theorem aPat_concat (k : Nat) : aPat (k + 1) = aChunk k ++ [' '] := by
  rw [aPat_add k 1, aChunk, List.append_assoc]
  rfl

/-- Dropping an even number of characters peels whole pattern copies. -/
theorem aPat_drop_even (n k : Nat) (h : k ≤ n) : (aPat n).drop (2 * k) = aPat (n - k) := by
  have hn : n = k + (n - k) := by omega
  calc (aPat n).drop (2 * k) = (aPat (k + (n - k))).drop (2 * k) := by rw [← hn]
    _ = (aPat k ++ aPat (n - k)).drop (2 * k) := by rw [aPat_add]
    _ = aPat (n - k) := by rw [← aPat_length k]; exact List.drop_left _ _

/-- Taking an even number of characters keeps whole pattern copies. -/
theorem aPat_take_even (n k : Nat) (h : k ≤ n) : (aPat n).take (2 * k) = aPat k := by
  have hn : n = k + (n - k) := by omega
  calc (aPat n).take (2 * k) = (aPat (k + (n - k))).take (2 * k) := by rw [← hn]
    _ = (aPat k ++ aPat (n - k)).take (2 * k) := by rw [aPat_add]
    _ = aPat k := by rw [← aPat_length k]; exact List.take_left _ _

/-- Dropping an odd number of characters leaves a space followed by a pattern. -/
theorem aPat_drop_odd (n k : Nat) (h : k < n) :
    (aPat n).drop (2 * k + 1) = ' ' :: aPat (n - k - 1) := by
  have h2 : (aPat n).drop (2 * k) = aPat (n - k) := aPat_drop_even n k (le_of_lt h)
  have h3 : (aPat n).drop (2 * k + 1) = ((aPat n).drop (2 * k)).drop 1 := by
    rw [List.drop_drop]
  rw [h3, h2, show n - k = (n - k - 1) + 1 from by omega, aPat_succ]
  rfl

/-- Taking an odd number of characters yields a chunk. -/
theorem aPat_take_odd (n k : Nat) (h : k < n) : (aPat n).take (2 * k + 1) = aChunk k := by
  have hn : n = k + (n - k) := by omega
  calc (aPat n).take (2 * k + 1) = (aPat k ++ aPat (n - k)).take (2 * k + 1) := by
        rw [← aPat_add, ← hn]
    _ = aPat k ++ (aPat (n - k)).take 1 := by
        rw [← aPat_length k]; exact List.take_append 1
    _ = aChunk k := by
        rw [show n - k = (n - k - 1) + 1 from by omega, aPat_succ]
        rfl

/-- Unfolding of the last-space scan on a cons cell. -/
theorem lastSpaceIdx_cons (c : Char) (l : List Char) :
    lastSpaceIdx (c :: l) = match lastSpaceIdx l with
      | some i => some (i + 1)
      | none => if c = ' ' then some 0 else none := rfl

/-- Position of the last space inside a pattern. -/
theorem lastSpaceIdx_aPat (k : Nat) :
    lastSpaceIdx (aPat k) = if k = 0 then none else some (2 * k - 1) := by
  induction k with
  | zero => rfl
  | succ j ih =>
    by_cases hj : j = 0
    · subst hj; rfl
    · rw [aPat_succ, lastSpaceIdx_cons, lastSpaceIdx_cons, ih, if_neg hj,
        if_neg (by omega : ¬(j + 1 = 0))]
      show some (2 * j - 1 + 1 + 1) = some (2 * (j + 1) - 1)
      congr 1
      omega

/-- A trailing letter does not move the last space. -/
theorem lastSpaceIdx_append_a (l : List Char) :
    lastSpaceIdx (l ++ ['a']) = lastSpaceIdx l := by
  induction l with
  | nil => rfl
  | cons c t ih => rw [List.cons_append, lastSpaceIdx_cons, lastSpaceIdx_cons, ih]

/-- Position of the last space inside a chunk. -/
theorem lastSpaceIdx_aChunk (k : Nat) :
    lastSpaceIdx (aChunk k) = if k = 0 then none else some (2 * k - 1) := by
  rw [aChunk, lastSpaceIdx_append_a, lastSpaceIdx_aPat]

/-- Stripping removes a leading space. -/
theorem stripChars_cons_space (l : List Char) : stripChars (' ' :: l) = stripChars l := by
  rw [stripChars, stripChars, List.dropWhile_cons, if_pos (by decide)]

/-- A chunk has no leading whitespace. -/
theorem dropWhile_aChunk (k : Nat) : (aChunk k).dropWhile isWS = aChunk k := by
  cases k with
  | zero => rfl
  | succ j => rw [aChunk_succ, List.dropWhile_cons, if_neg (by decide)]

/-- Reversing a chunk puts its final letter in front. -/
theorem reverse_aChunk (k : Nat) : (aChunk k).reverse = 'a' :: (aPat k).reverse := by
  rw [aChunk, List.reverse_append]
  rfl

/-- A chunk is already stripped. -/
theorem stripChars_aChunk (k : Nat) : stripChars (aChunk k) = aChunk k := by
  rw [stripChars, dropWhile_aChunk, reverse_aChunk, List.dropWhile_cons, if_neg (by decide)]
  rw [← reverse_aChunk, List.reverse_reverse]

/-- Stripping removes the single trailing space after a chunk. -/
theorem stripChars_aChunk_space (k : Nat) : stripChars (aChunk k ++ [' ']) = aChunk k := by
  rw [stripChars]
  have h1 : (aChunk k ++ [' ']).dropWhile isWS = aChunk k ++ [' '] := by
    cases k with
    | zero => rfl
    | succ j => rw [aChunk_succ, List.cons_append, List.dropWhile_cons, if_neg (by decide)]
  rw [h1, List.reverse_append,
    show ([' '] : List Char).reverse ++ (aChunk k).reverse = ' ' :: (aChunk k).reverse from rfl,
    List.dropWhile_cons, if_pos (by decide), reverse_aChunk, List.dropWhile_cons,
    if_neg (by decide), ← reverse_aChunk, List.reverse_reverse]

/-- Stripping a space followed by a nonzero pattern yields a chunk. -/
theorem stripChars_space_aPat (k : Nat) : stripChars (' ' :: aPat (k + 1)) = aChunk k := by
  rw [stripChars_cons_space, aPat_concat k, stripChars_aChunk_space]

/-- Length of the claim input. -/
theorem t1000_length : t1000.length = 2000 := by
  rw [t1000, aPat_length]

/-- The claim input is not empty. -/
theorem t1000_isEmpty : t1000.isEmpty = false := by
  rw [t1000, show (1000 : Nat) = 999 + 1 from rfl, aPat_succ]
  rfl

/-- The loop step when the next window still lies inside the text. -/
theorem chunkLoop_enter (fuel start : Nat) (acc : List (List Char))
    (hlt : start < t1000.length)
    (hstop : ¬ t1000.length ≤ chunkStop t1000 512 start - 50) :
    chunkLoop t1000 512 50 (fuel + 1) start acc
      = chunkLoop t1000 512 50 fuel (chunkStop t1000 512 start - 50)
          (chunkAcc t1000 start (chunkStop t1000 512 start) acc) := by
  simp only [chunkLoop]
  rw [if_pos hlt, if_neg hstop]

/-- The loop step when the next window falls past the text: the loop stops. -/
theorem chunkLoop_exit (fuel start : Nat) (acc : List (List Char))
    (hlt : start < t1000.length)
    (hstop : t1000.length ≤ chunkStop t1000 512 start - 50) :
    chunkLoop t1000 512 50 (fuel + 1) start acc
      = some (chunkAcc t1000 start (chunkStop t1000 512 start) acc) := by
  simp only [chunkLoop]
  rw [if_pos hlt, if_pos hstop]

/-- The chunk end when the window is short of the end and a space is found after
`start`. -/
theorem chunkStop_found (start p : Nat) (hs : start + 512 < 2000)
    (hrf : rfindSpace t1000 start (start + 512) = some p) (hp : start < p) :
    chunkStop t1000 512 start = p := by
  rw [chunkStop, if_pos (by rw [t1000_length]; exact hs)]
  simp only [hrf]
  rw [if_pos hp]

/-- An accumulator step that keeps a known non-empty chunk. -/
theorem chunkAcc_eq (text : List Char) (start stop : Nat) (acc : List (List Char))
    (c : List Char) (hp : chunkPiece text start stop = c) (hc : c.isEmpty = false) :
    chunkAcc text start stop acc = acc ++ [c] := by
  rw [chunkAcc, hp, hc, if_neg Bool.false_ne_true]

/-- The space search of the first iteration. -/
theorem rfindSpace_it1 : rfindSpace t1000 0 (0 + 512) = some 511 := by
  rw [rfindSpace]
  have hs : sliceChars t1000 0 (0 + 512) = aPat 256 := by
    rw [sliceChars, t1000, List.drop_zero, show (0 : Nat) + 512 - 0 = 2 * 256 from rfl]
    exact aPat_take_even 1000 256 (by omega)
  rw [hs, lastSpaceIdx_aPat, if_neg (by omega : ¬(256 = 0))]
  rfl

/-- The space search of a middle iteration starting at an odd position. -/
theorem rfindSpace_mid (m : Nat) (hm : m ≤ 743) :
    rfindSpace t1000 (2 * m + 1) (2 * m + 1 + 512) = some (2 * m + 511) := by
  rw [rfindSpace]
  have hslice : sliceChars t1000 (2 * m + 1) (2 * m + 1 + 512) = ' ' :: aChunk 255 := by
    rw [sliceChars, t1000, aPat_drop_odd 1000 m (by omega),
      show 2 * m + 1 + 512 - (2 * m + 1) = 512 from by omega,
      show (512 : Nat) = 511 + 1 from rfl, List.take_succ_cons,
      show (511 : Nat) = 2 * 255 + 1 from rfl,
      aPat_take_odd (1000 - m - 1) 255 (by omega)]
  rw [hslice]
  have hls : lastSpaceIdx (' ' :: aChunk 255) = some 510 := by
    rw [lastSpaceIdx_cons, lastSpaceIdx_aChunk, if_neg (by omega : ¬(255 = 0))]
  rw [hls]
  show some (2 * m + 1 + 510) = some (2 * m + 511)
  congr 1

/-- The chunk end of the final iteration: the window already covers the text. -/
theorem chunkStop_it5 : chunkStop t1000 512 1841 = 2353 := by
  rw [chunkStop, if_neg (by rw [t1000_length]; omega)]

/-- The stripped chunk of the first iteration. -/
theorem chunkPiece_it1 : chunkPiece t1000 0 511 = aChunk 255 := by
  rw [chunkPiece, sliceChars, t1000, List.drop_zero,
    show (511 : Nat) - 0 = 2 * 255 + 1 from rfl,
    aPat_take_odd 1000 255 (by omega), stripChars_aChunk]

/-- The stripped chunk of a middle iteration. -/
theorem chunkPiece_mid (m : Nat) (hm : m ≤ 743) :
    chunkPiece t1000 (2 * m + 1) (2 * m + 511) = aChunk 254 := by
  rw [chunkPiece, sliceChars, t1000, aPat_drop_odd 1000 m (by omega),
    show 2 * m + 511 - (2 * m + 1) = 510 from by omega,
    show (510 : Nat) = 509 + 1 from rfl, List.take_succ_cons,
    show (509 : Nat) = 2 * 254 + 1 from rfl,
    aPat_take_odd (1000 - m - 1) 254 (by omega),
    stripChars_cons_space, stripChars_aChunk]

/-- The stripped chunk of the final iteration. -/
theorem chunkPiece_it5 : chunkPiece t1000 1841 2353 = aChunk 78 := by
  have hslice : sliceChars t1000 1841 2353 = ' ' :: aPat 79 := by
    rw [sliceChars, t1000, show (1841 : Nat) = 2 * 920 + 1 from rfl,
      aPat_drop_odd 1000 920 (by omega), show (1000 : Nat) - 920 - 1 = 79 from rfl]
    exact List.take_of_length_le (by rw [List.length_cons, aPat_length]; omega)
  rw [chunkPiece, hslice, show (79 : Nat) = 78 + 1 from rfl, stripChars_space_aPat]

/-- First loop iteration: the window [0, 511) is cut at the last space and the
loop continues at 461. -/
theorem chunkIter1 (fuel : Nat) (acc : List (List Char)) :
    chunkLoop t1000 512 50 (fuel + 1) 0 acc
      = chunkLoop t1000 512 50 fuel 461 (acc ++ [aChunk 255]) := by
  have hstop : chunkStop t1000 512 0 = 511 :=
    chunkStop_found 0 511 (by omega) rfindSpace_it1 (by omega)
  rw [chunkLoop_enter fuel 0 acc (by rw [t1000_length]; omega)
    (by rw [hstop, t1000_length]; omega)]
  rw [hstop, chunkAcc_eq t1000 0 511 acc (aChunk 255) chunkPiece_it1 (aChunk_isEmpty 255)]

/-- Middle loop iteration: from an odd start `2 m + 1` the loop keeps a
509-character chunk and advances by 460 positions. -/
theorem chunkIterMid (m : Nat) (hm : m ≤ 690) (fuel : Nat) (acc : List (List Char)) :
    chunkLoop t1000 512 50 (fuel + 1) (2 * m + 1) acc
      = chunkLoop t1000 512 50 fuel (2 * (m + 230) + 1) (acc ++ [aChunk 254]) := by
  have hstop : chunkStop t1000 512 (2 * m + 1) = 2 * m + 511 :=
    chunkStop_found _ _ (by omega) (rfindSpace_mid m (by omega)) (by omega)
  rw [chunkLoop_enter fuel _ acc (by rw [t1000_length]; omega)
    (by rw [hstop, t1000_length]; omega)]
  rw [hstop, chunkAcc_eq t1000 _ _ acc (aChunk 254) (chunkPiece_mid m (by omega))
    (aChunk_isEmpty 254)]
  rw [show 2 * m + 511 - 50 = 2 * (m + 230) + 1 from by omega]

/-- Final loop iteration: from 1841 the loop keeps the stripped tail chunk and
stops. -/
theorem chunkIter5 (fuel : Nat) (acc : List (List Char)) :
    chunkLoop t1000 512 50 (fuel + 1) 1841 acc = some (acc ++ [aChunk 78]) := by
  rw [chunkLoop_exit fuel 1841 acc (by rw [t1000_length]; omega)
    (by rw [chunkStop_it5, t1000_length]; omega)]
  rw [chunkStop_it5, chunkAcc_eq t1000 1841 2353 acc (aChunk 78) chunkPiece_it5
    (aChunk_isEmpty 78)]

/-- The chunker terminates on the claim input and produces exactly the five
chunks of 511, 509, 509, 509 and 157 characters. -/
theorem chunk_text_t1000 : chunk_text t1000 512 50 = some chunks1000 := by
  rw [chunk_text, if_neg (by rw [t1000_isEmpty]; exact Bool.false_ne_true),
    if_neg (by rw [t1000_length]; omega), t1000_length]
  rw [chunkIter1 2000 []]
  rw [show (461 : Nat) = 2 * 230 + 1 from rfl,
    show (2000 : Nat) = 1999 + 1 from rfl, chunkIterMid 230 (by omega) 1999]
  rw [show 2 * (230 + 230) + 1 = 2 * 460 + 1 from rfl,
    show (1999 : Nat) = 1998 + 1 from rfl, chunkIterMid 460 (by omega) 1998]
  rw [show 2 * (460 + 230) + 1 = 2 * 690 + 1 from rfl,
    show (1998 : Nat) = 1997 + 1 from rfl, chunkIterMid 690 (by omega) 1997]
  rw [show 2 * (690 + 230) + 1 = 1841 from rfl,
    show (1997 : Nat) = 1996 + 1 from rfl, chunkIter5 1996]
  rfl

/-- Gluing a chunk, a space and a chunk gives a longer chunk. -/
theorem aChunk_glue (a b : Nat) : aChunk a ++ (' ' :: aChunk b) = aChunk (a + 1 + b) := by
  rw [aChunk, aChunk, aChunk, show a + 1 + b = a + (b + 1) from by omega,
    aPat_add a (b + 1), aPat_succ]
  simp [List.append_assoc]

/-- Dropping 49 characters from a long enough chunk leaves a space and a chunk. -/
theorem drop49_aChunk (k : Nat) (hk : 24 < k) :
    (aChunk k).drop 49 = ' ' :: aChunk (k - 25) := by
  have hglue : aChunk 24 ++ (' ' :: aChunk (k - 25)) = aChunk k := by
    rw [aChunk_glue]
    congr 1
    omega
  rw [← hglue, show (49 : Nat) = (aChunk 24).length from by rw [aChunk_length]]
  exact List.drop_left _ _

/-- Taking 49 characters from a long enough chunk gives the 49-character chunk. -/
theorem take49_aChunk (k : Nat) (hk : 24 < k) : (aChunk k).take 49 = aChunk 24 := by
  have hglue : aChunk 24 ++ (' ' :: aChunk (k - 25)) = aChunk k := by
    rw [aChunk_glue]
    congr 1
    omega
  rw [← hglue, show (49 : Nat) = (aChunk 24).length from by rw [aChunk_length]]
  exact List.take_left _ _

/-- A shorter chunk is a suffix of a longer chunk. -/
theorem aChunk_suffix (j k : Nat) (h : j ≤ k) : aChunk j <:+ aChunk k := by
  refine ⟨aPat (k - j), ?_⟩
  rw [aChunk, aChunk, ← List.append_assoc, ← aPat_add,
    show k - j + j = k from by omega]

/-- The tail of the claim input. -/
theorem t1000_split : t1000 = aChunk 999 ++ [' '] := by
  rw [t1000, show (1000 : Nat) = 999 + 1 from rfl, aPat_concat]

/-- Removing the 49-character overlaps and concatenating reconstructs the claim
input up to its final space. -/
theorem merge_t1000 : mergeChunks chunks1000 [49, 49, 49, 49] = t1000.dropLast := by
  have hd : t1000.dropLast = aChunk 999 := by
    rw [t1000_split, List.dropLast_concat]
  rw [hd, chunks1000, mergeChunks]
  show aChunk 255 ++ ((aChunk 254).drop 49 ++ ((aChunk 254).drop 49 ++
    ((aChunk 254).drop 49 ++ ((aChunk 78).drop 49 ++ ([] : List Char))))) = aChunk 999
  rw [drop49_aChunk 254 (by omega), drop49_aChunk 78 (by omega), List.append_nil,
    show (254 : Nat) - 25 = 229 from rfl, show (78 : Nat) - 25 = 53 from rfl]
  rw [show ((' ' :: aChunk 229 : List Char) ++ (' ' :: aChunk 53)) = ' ' :: aChunk 283 from by
    rw [List.cons_append, aChunk_glue]]
  rw [show ((' ' :: aChunk 229 : List Char) ++ (' ' :: aChunk 283)) = ' ' :: aChunk 513 from by
    rw [List.cons_append, aChunk_glue]]
  rw [show ((' ' :: aChunk 229 : List Char) ++ (' ' :: aChunk 513)) = ' ' :: aChunk 743 from by
    rw [List.cons_append, aChunk_glue]]
  rw [aChunk_glue]

/-- Dropping either empties a list or preserves its last element. -/
theorem getLastQ_drop (l : List Char) :
    ∀ k : Nat, l.drop k = [] ∨ (l.drop k).getLast? = l.getLast? := by
  induction l with
  | nil => intro k; left; simp
  | cons c t ih =>
    intro k
    cases k with
    | zero => right; rfl
    | succ j =>
      cases t with
      | nil => left; simp
      | cons d t2 =>
        rw [List.drop_succ_cons]
        rcases ih j with h | h
        · left; exact h
        · right
          rw [h, List.getLast?_cons_cons]

/-- Every piece of the overlap-removal zip is a drop of one of the later chunks. -/
theorem zipWith_drop_mem (cs : List (List Char)) :
    ∀ (ks : List Nat) (x : List Char),
      x ∈ List.zipWith (fun (piece : List Char) k => piece.drop k) cs ks →
      ∃ c ∈ cs, ∃ k, x = c.drop k := by
  induction cs with
  | nil => intro ks x hx; simp at hx
  | cons c rest ih =>
    intro ks x hx
    cases ks with
    | nil => simp at hx
    | cons k ks2 =>
      rw [List.zipWith_cons_cons] at hx
      rcases List.mem_cons.mp hx with hx | hx
      · exact ⟨c, List.mem_cons_self _ _, k, hx⟩
      · obtain ⟨c0, hc0, k0, hk0⟩ := ih ks2 x hx
        exact ⟨c0, List.mem_cons_of_mem _ hc0, k0, hk0⟩

/-- Flattening pieces that are empty or end in the letter ends in the letter. -/
theorem flatten_ends_a : ∀ (pieces : List (List Char)),
    (∀ x ∈ pieces, x = [] ∨ x.getLast? = some 'a') →
    pieces.flatten = [] ∨ (pieces.flatten).getLast? = some 'a' := by
  intro pieces
  induction pieces with
  | nil => intro _; left; rfl
  | cons p ps ih =>
    intro hp
    rw [List.flatten_cons]
    rcases ih (fun x hx => hp x (List.mem_cons_of_mem _ hx)) with h | h
    · rw [h, List.append_nil]
      exact hp p (List.mem_cons_self _ _)
    · right
      rw [List.getLast?_append, h]
      rfl

/-- A chunk ends in the letter. -/
theorem aChunk_getLast (k : Nat) : (aChunk k).getLast? = some 'a' := by
  rw [aChunk]
  exact List.getLast?_concat _

/-- Whatever overlap amounts are removed, the concatenation of the five chunks
ends in the letter a. -/
theorem mergeChunks_ends_a (ks : List Nat) :
    (mergeChunks chunks1000 ks).getLast? = some 'a' := by
  rw [chunks1000, mergeChunks, List.getLast?_append]
  have hp : ∀ x ∈ List.zipWith (fun (piece : List Char) k => piece.drop k)
      [aChunk 254, aChunk 254, aChunk 254, aChunk 78] ks, x = [] ∨ x.getLast? = some 'a' := by
    intro x hx
    obtain ⟨c, hc, k, hk⟩ := zipWith_drop_mem _ ks x hx
    have hcl : c.getLast? = some 'a' := by
      simp only [List.mem_cons, List.not_mem_nil, or_false] at hc
      rcases hc with h | h | h | h <;> (subst h; exact aChunk_getLast _)
    subst hk
    rcases getLastQ_drop c k with h | h
    · left; exact h
    · right; rw [h, hcl]
  rcases flatten_ends_a _ hp with h | h
  · rw [h, aChunk_getLast]
    rfl
  · rw [h]
    rfl

/-- The claim input ends in a space. -/
theorem t1000_ends_space : t1000.getLast? = some ' ' := by
  rw [t1000_split]
  exact List.getLast?_concat _

/-- No removal of overlaps can reconstruct the claim input from the chunks: the
final space of the input survives in no chunk. -/
theorem merge_ne_t1000 (ks : List Nat) : mergeChunks chunks1000 ks ≠ t1000 := by
  intro heq
  have h1 := mergeChunks_ends_a ks
  rw [heq, t1000_ends_space] at h1
  injection h1 with h2
  exact absurd h2 (by decide)

/-- C5, counterexample.  On the input of 1000 copies of "a " with size 512 and
overlap 50, the chunker terminates with five chunks, but the concatenation with
the 49-character junction overlaps removed equals the input minus its final
space, which differs from the input: the stripped chunks cannot reconstruct it. -/
theorem c5_counterexample :
    chunk_text t1000 512 50 = some chunks1000 ∧
    mergeChunks chunks1000 [49, 49, 49, 49] = t1000.dropLast ∧
    t1000.dropLast ≠ t1000 := by
  refine ⟨chunk_text_t1000, merge_t1000, ?_⟩
  intro h
  have h2 := congrArg List.length h
  rw [List.length_dropLast, t1000_length] at h2
  omega

/-- C5, amended.  On the claim input the chunker terminates with five chunks of
at most 512 characters each; at each junction the 49-character (hence at most
50) overlap is genuine, being both a prefix of the later chunk and a suffix of
the earlier one; the concatenation with these overlaps removed reconstructs the
input stripped of its trailing space, and no choice of removed overlaps can
reconstruct the input itself, whose final space survives in no stripped chunk. -/
theorem c5_chunk_text_spec :
    chunk_text t1000 512 50 = some chunks1000 ∧
    (∀ c ∈ chunks1000, c.length ≤ 512) ∧
    (∀ k ∈ [49, 49, 49, 49], k ≤ 50) ∧
    ((aChunk 254).take 49 <:+ aChunk 255 ∧ (aChunk 254).take 49 <:+ aChunk 254 ∧
      (aChunk 78).take 49 <:+ aChunk 254) ∧
    mergeChunks chunks1000 [49, 49, 49, 49] = stripChars t1000 ∧
    (∀ ks : List Nat, mergeChunks chunks1000 ks ≠ t1000) := by
  refine ⟨chunk_text_t1000, ?_, ?_, ⟨?_, ?_, ?_⟩, ?_, merge_ne_t1000⟩
  · intro c hc
    simp only [chunks1000, List.mem_cons, List.not_mem_nil, or_false] at hc
    rcases hc with h | h | h | h | h <;> (subst h; rw [aChunk_length]) <;> omega
  · intro k hk
    simp only [List.mem_cons, List.not_mem_nil, or_false] at hk
    rcases hk with h | h | h | h <;> omega
  · rw [take49_aChunk 254 (by omega)]
    exact aChunk_suffix 24 255 (by omega)
  · rw [take49_aChunk 254 (by omega)]
    exact aChunk_suffix 24 254 (by omega)
  · rw [take49_aChunk 78 (by omega)]
    exact aChunk_suffix 24 254 (by omega)
  · rw [merge_t1000, t1000_split, List.dropLast_concat, stripChars_aChunk_space]

/-- C5, witness: the first chunk respects the length bound, and removing no
overlap at all still cannot reconstruct the input. -/
theorem c5_witness :
    (aChunk 255).length ≤ 512 ∧ mergeChunks chunks1000 [] ≠ t1000 := by
  have h := c5_chunk_text_spec
  exact ⟨h.2.1 (aChunk 255) (by rw [chunks1000]; exact List.mem_cons_self _ _),
    h.2.2.2.2.2 []⟩

end SpaceApp
